import Mathlib

/-!
Verification of the bit-region pointer encoding subsystem (`src/ptr.rs`) and
the bit-array conversion impls (`src/array/traits.rs`).

The embedding models a 64-bit target: `usize` values are natural numbers
reduced modulo `2 ^ 64` wherever the source wraps.  A storage element type `T`
is represented by the natural number `h = log2 (size_of::<T>())`, so that
`u8, u16, u32, u64` are `h = 0, 1, 2, 3`.  For such an element,
`T::Mem::BITS = 8 * 2 ^ h`, `T::Mem::INDX = 3 + h`, and the number of head
bits borrowed from the pointer word is `BitPtr::PTR_HEAD_BITS = h`.
-/

namespace Bitvec

/-- Modelled constant `BitPtr::LEN_HEAD_BITS`: low bits of the length word that
hold the low bits of the head index (`ptr.rs` line 492). -/
def LEN_HEAD_BITS : Nat := 3

/-- Modelled constant `BitPtr::LEN_HEAD_MASK` (`ptr.rs` line 494). -/
def LEN_HEAD_MASK : Nat := 0b111

/-- Number of bytes of an element with log-size `h` (`size_of::<T>()`). -/
def elemBytes (h : Nat) : Nat := 2 ^ h

/-- `T::Mem::BITS`: bit width of an element with log-size `h`. -/
def elemBits (h : Nat) : Nat := 8 * 2 ^ h

/-- `T::Mem::INDX`: number of bits needed to index a bit inside an element. -/
def elemIndx (h : Nat) : Nat := 3 + h

/-- `T::Mem::MASK`: bit mask of `T::Mem::BITS - 1`. -/
def elemMask (h : Nat) : Nat := elemBits h - 1

/-- Modelled constant `BitPtr::PTR_HEAD_BITS = T::Mem::INDX - LEN_HEAD_BITS`
(`ptr.rs` lines 501-502). -/
def PTR_HEAD_BITS (h : Nat) : Nat := elemIndx h - LEN_HEAD_BITS

/-- Modelled constant `BitPtr::PTR_ADDR_MASK = !0 << PTR_HEAD_BITS` on a 64-bit
`usize` (`ptr.rs` line 496): the shift wraps modulo `2 ^ 64`. -/
def PTR_ADDR_MASK (h : Nat) : Nat := ((2 ^ 64 - 1) <<< PTR_HEAD_BITS h) % 2 ^ 64

/-- Modelled constant `BitPtr::PTR_HEAD_MASK = !PTR_ADDR_MASK` (`ptr.rs`
line 504): bitwise complement within 64 bits. -/
def PTR_HEAD_MASK (h : Nat) : Nat := (2 ^ 64 - 1) ^^^ PTR_ADDR_MASK h

/-- Modelled constant `BitPtr::REGION_MAX_BITS = !0 >> LEN_HEAD_BITS`
(`ptr.rs` line 506). -/
def REGION_MAX_BITS : Nat := (2 ^ 64 - 1) >>> LEN_HEAD_BITS

/-- Fuelled trailing-zero counter used to model `usize::trailing_zeros`. -/
def ctzAux : Nat → Nat → Nat
  | 0, _ => 0
  | fuel + 1, n => if n % 2 = 0 then ctzAux fuel (n / 2) + 1 else 0

/-- Model of `usize::trailing_zeros` on a 64-bit word: the number of trailing
zero bits, and `64` for the zero word. -/
def trailingZeros (n : Nat) : Nat := ctzAux 64 n

/-- The two structural words of `BitPtr<O, T>` (`ptr.rs` lines 432-464):
`ptrWord` models the `ptr: NonNull<u8>` field (address plus high head bits)
and `lenWord` models the `len: usize` field (bit length plus low head bits). -/
structure BitPtr where
  ptrWord : Nat
  lenWord : Nat
deriving DecidableEq, Repr

/-- Modelled `BitPtr::EMPTY` (`ptr.rs` lines 472-484): the dangling address of
`T` is `align_of::<T>() = 2 ^ h`, and the length word is zero. -/
def BitPtr.EMPTY (h : Nat) : BitPtr := ⟨2 ^ h, 0⟩

/-- Modelled `BitPtr::new_unchecked` (`ptr.rs` lines 634-657): packs the
`(addr, head, bits)` triple into the two words with no validity checks.  The
`bits << LEN_HEAD_BITS` shift wraps modulo `2 ^ 64` as a `usize` shift does. -/
def BitPtr.new_unchecked (h addr head bits : Nat) : BitPtr :=
  let ptr_data := addr &&& PTR_ADDR_MASK h
  let ptr_head := head >>> LEN_HEAD_BITS
  let len_head := head &&& LEN_HEAD_MASK
  let len_bits := (bits <<< LEN_HEAD_BITS) % 2 ^ 64
  ⟨ptr_data ||| ptr_head, len_bits ||| len_head⟩

/-- Modelled `BitPtr::pointer` (`ptr.rs` lines 928-934): the base element
address, recovered by masking the head bits off the pointer word. -/
def BitPtr.pointer (h : Nat) (p : BitPtr) : Nat :=
  p.ptrWord &&& PTR_ADDR_MASK h

/-- Modelled `BitPtr::head` (`ptr.rs` lines 976-984): the head bit index,
recombined from the pointer word's low bits and the length word's low three
bits; the final `as u8` cast reduces modulo `2 ^ 8`. -/
def BitPtr.head (h : Nat) (p : BitPtr) : Nat :=
  (((p.ptrWord &&& PTR_HEAD_MASK h) <<< LEN_HEAD_BITS)
    ||| (p.lenWord &&& LEN_HEAD_MASK)) % 2 ^ 8

/-- Modelled `BitPtr::len` (`ptr.rs` lines 1019-1021): the bit length,
recovered by shifting the length word right by three. -/
def BitPtr.len (p : BitPtr) : Nat :=
  p.lenWord >>> LEN_HEAD_BITS

/-- Modelled `BitPtr::raw_parts` (`ptr.rs` lines 1058-1060). -/
def BitPtr.raw_parts (h : Nat) (p : BitPtr) : Nat × Nat × Nat :=
  (p.pointer h, p.head h, p.len)

/-- Modelled from the spec: the element count of `BitIdx::span(head, bits)`
(`crate::index`, not under `src/`) — "the number of elements needed to hold"
the `bits` live bits beginning at index `head`: zero when the span is empty,
otherwise `(head + bits)` divided by the element width, rounded up. -/
def spanElts (h head bits : Nat) : Nat :=
  if bits = 0 then 0 else (head + bits + (elemBits h - 1)) / elemBits h

/-- Modelled `BitPtr::new` (`ptr.rs` lines 590-612): rejects a null address,
an address with fewer than `PTR_HEAD_BITS` trailing zeros, a length above
`REGION_MAX_BITS`, and a region whose one-past-end address (computed with the
wrapping pointer addition of `elts` elements) wraps below the base address. -/
def BitPtr.new (h addr head bits : Nat) : Option BitPtr :=
  if addr = 0 ∨ trailingZeros addr < PTR_HEAD_BITS h ∨ bits > REGION_MAX_BITS then
    none
  else
    let elts := spanElts h head bits
    let last := (addr + elts * elemBytes h) % 2 ^ 64
    if last < addr then none
    else some (BitPtr.new_unchecked h addr head bits)

/-- Modelled `BitPtr::uninhabited` (`ptr.rs` lines 544-561): the function
first asserts that the address has at least `PTR_HEAD_BITS` trailing zeros —
an assertion failure is a panic, modelled here as `none` — and then builds the
zero-length pointer, falling back to `EMPTY` exactly when the address is null. -/
def BitPtr.uninhabited (h addr : Nat) : Option BitPtr :=
  if trailingZeros addr < PTR_HEAD_BITS h then none
  else some (if addr = 0 then BitPtr.EMPTY h else ⟨addr, 0⟩)

/-- Modelled `BitPtr::elements` (`ptr.rs` lines 1077-1085): the number of
memory elements touched by the region.  The `total as u8` cast reduces modulo
`2 ^ 8` before the mask is applied. -/
def BitPtr.elements (h : Nat) (p : BitPtr) : Nat :=
  let total := p.len + p.head h
  let base := total >>> elemIndx h
  let t := (total % 2 ^ 8) &&& elemMask h
  base + (if t ≠ 0 then 1 else 0)

/-- Modelled `BitPtr::tail` (`ptr.rs` lines 1100-1120): the one-past-last bit
index in the final element, with an exact multiple remapped to the full
element width, and `0` only for the truly empty pointer.  The final value is
built in `u8` arithmetic, modelled by reduction modulo `2 ^ 8`. -/
def BitPtr.tail (h : Nat) (p : BitPtr) : Nat :=
  let hd := p.head h
  let ln := p.len
  if hd = 0 ∧ ln = 0 then 0
  else
    let t := (hd + ln) &&& elemMask h
    (((if t = 0 then 1 else 0) <<< elemIndx h) ||| t) % 2 ^ 8

/-- Modelled `BitPtr::incr_head` (`ptr.rs` lines 1137-1156): increments the
head index by one, writing its low bits into the length word and numerically
adding its high bits into the pointer word, which rolls the address to the
next element on overflow of the in-element head.  The `usize` addition wraps
modulo `2 ^ 64`. -/
def BitPtr.incr_head (h : Nat) (p : BitPtr) : BitPtr :=
  let head := p.head h + 1
  let lenW := (p.lenWord &&& ((2 ^ 64 - 1) ^^^ LEN_HEAD_MASK))
    ||| (head &&& LEN_HEAD_MASK)
  let head2 := head >>> LEN_HEAD_BITS
  let ptrW := ((p.ptrWord &&& PTR_ADDR_MASK h) + head2) % 2 ^ 64
  ⟨ptrW, lenW⟩

/-- Iterated application of `incr_head`. -/
def BitPtr.incrIter (h : Nat) : Nat → BitPtr → BitPtr
  | 0, p => p
  | n + 1, p => BitPtr.incrIter h n (p.incr_head h)

/-- Modelled `BitPtr::ptr_diff` (`ptr.rs` lines 1266-1272): the element
distance is `offset_from` of the two base addresses — the byte distance
divided exactly by the element size — and the bit distance is the signed
difference of the two head indices, computed in `i8`. -/
def BitPtr.ptr_diff (h : Nat) (a b : BitPtr) : Int × Int :=
  (((b.pointer h : Int) - (a.pointer h : Int)) / (elemBytes h : Int),
   (b.head h : Int) - (a.head h : Int))

/-- Modelled `PartialEq for BitPtr` (`ptr.rs` lines 1347-1363): two region
pointers, possibly of different element widths, compare equal exactly when the
widths, the decoded addresses, the decoded heads, and the decoded lengths all
agree. -/
def BitPtr.eq (hT hU : Nat) (a b : BitPtr) : Bool :=
  elemBits hT == elemBits hU
    && a.pointer hT == b.pointer hU
    && a.head hT == b.head hU
    && a.len == b.len

/-- Modelled from the spec: the region decomposition (`crate::domain`, not
under `src/`).  `enclave` carries the head index, the element address, and
the tail index; `region` carries an optional unaligned head edge
`(head index, address)`, an aligned body `(address, element count)`, and an
optional unaligned tail edge `(address, tail index)`. -/
inductive Domain where
  | enclave (head addr tail : Nat)
  | region (headEdge : Option (Nat × Nat)) (body : Nat × Nat)
      (tailEdge : Option (Nat × Nat))

/-- Modelled from the spec: the classification of a region into `Domain`
(`crate::domain`, not under `src/`).  Per §3 of the spec, a region is an
`Enclave` when all live bits fall within a single element, none of which is a
whole element; otherwise it is a `Region` made of an optional head edge (the
partially-used first element, present when `head ≠ 0`), a fully-aligned body
of whole elements, and an optional tail edge (the partially-used last
element, present when `tail ≠ BITS`). -/
def domain (h : Nat) (p : BitPtr) : Domain :=
  let hd := p.head h
  let elts := p.elements h
  let tl := p.tail h
  let w := elemBits h
  let base := p.pointer h
  let s := elemBytes h
  if elts = 0 then .region none (base, 0) none
  else if hd = 0 ∧ tl = w then .region none (base, elts) none
  else if elts = 1 then .enclave hd base tl
  else if tl = w then .region (some (hd, base)) (base + s, elts - 1) none
  else if hd = 0 then
    .region none (base, elts - 1) (some (base + (elts - 1) * s, tl))
  else
    .region (some (hd, base)) (base + s, elts - 2)
      (some (base + (elts - 1) * s, tl))

/-- Modelled from the spec: the native slice realignment primitive
`<[T]>::align_to::<U>` (core library, consumed by `BitPtr::align_to`).  Given
a slice of `n` elements of `sT` bytes at byte address `addr`, it returns the
left leftover of `T` elements before the first `sU`-aligned boundary, the
center run of whole `sU`-byte `U` elements, and the right leftover of `T`
elements, each as an `(address, element count)` pair. -/
def sliceAlignTo (sT sU addr n : Nat) : (Nat × Nat) × (Nat × Nat) × (Nat × Nat) :=
  let offBytes := (sU - addr % sU) % sU
  let off := offBytes / sT
  if n < off then
    ((addr, n), (addr + n * sT, 0), (addr + n * sT, 0))
  else
    let m := n - off
    let cU := m * sT / sU
    let rT := m - cU * sU / sT
    ((addr, off), (addr + off * sT, cU), (addr + off * sT + cU * sU, rT))

/-- Modelled `BitPtr::align_to` (`ptr.rs` lines 831-913): an `Enclave` source
is returned unchanged with empty center and right pointers; otherwise the
aligned body is split by the native realignment and the leftovers are merged
with the decomposition's head and tail edges. -/
def BitPtr.align_to (hT hU : Nat) (p : BitPtr) : BitPtr × BitPtr × BitPtr :=
  match domain hT p with
  | .enclave _ _ _ => (p, BitPtr.EMPTY hU, BitPtr.EMPTY hT)
  | .region headEdge body tailEdge =>
    let lcr := sliceAlignTo (elemBytes hT) (elemBytes hU) body.1 body.2
    let l := lcr.1
    let c := lcr.2.1
    let r := lcr.2.2
    let t_bits := elemBits hT
    let u_bits := elemBits hU
    let l_bits := l.2 * t_bits
    let c_bits := c.2 * u_bits
    let r_bits := r.2 * t_bits
    let l_ptr := match headEdge with
      | some he => BitPtr.new_unchecked hT he.2 he.1 (t_bits - he.1 + l_bits)
      | none =>
        if l_bits = 0 then BitPtr.EMPTY hT
        else BitPtr.new_unchecked hT l.1 0 l_bits
    let c_ptr :=
      if c_bits = 0 then BitPtr.EMPTY hU
      else BitPtr.new_unchecked hU c.1 0 c_bits
    let r_ptr := match tailEdge with
      | some te =>
        BitPtr.new_unchecked hT (if r.2 = 0 then te.1 else r.1) 0 (te.2 + r_bits)
      | none =>
        if r.2 ≠ 0 then BitPtr.new_unchecked hT r.1 0 r_bits
        else BitPtr.EMPTY hT
    (l_ptr, c_ptr, r_ptr)

/-- The bit contents of a region pointer, as the list of absolute bit
positions it denotes: the `i`-th live bit of a region at byte address `a`
with head index `hd` occupies absolute bit position `8 * a + hd + i`,
independently of the element width. -/
def BitPtr.contents (h : Nat) (p : BitPtr) : List Nat :=
  (List.range p.len).map (fun i => 8 * p.pointer h + p.head h + i)

/-- The half-open interval of absolute bit positions `[s, s + n)`, as a list. -/
def ival (s n : Nat) : List Nat :=
  (List.range n).map (fun i => s + i)

/-- `TryFrom<&BitSlice> for &BitArray` (`array/traits.rs` lines 182-198).
A `&BitSlice` reference is the slice-layout encoding of a `BitPtr`
(`ptr.rs` lines 318-322 and `from_bitslice_ptr`/`to_bitslice_ptr`, lines
678/718), so the argument `src` is the slice's `BitPtr` and
`src.bitptr()` is the identity; the slice's `len()` is the encoded bit
length `BitPtr.len` and `BitIdx::ZERO` is head index 0.  The array
capacity `V::const_bits()` is an associated constant of the type
parameter `V`, kept here as the parameter `N`.  The code returns the
error when `src.len() != V::const_bits() || bitptr.head() != BitIdx::ZERO`
and otherwise casts `bitptr.pointer()` to the array reference, embedded
as returning that address. -/
def BitArray.try_from_ref (h N : Nat) (src : BitPtr) : Option Nat :=
  if src.len ≠ N ∨ src.head h ≠ 0 then none
  else some (src.pointer h)

/-- `TryFrom<&mut BitSlice> for &mut BitArray` (`array/traits.rs` lines
200-216): the same guard `src.len() != V::const_bits() || bitptr.head()
!= BitIdx::ZERO` and the same pointer cast as the shared-reference
conversion, under the same slice-reference-as-`BitPtr` encoding. -/
def BitArray.try_from_mut (h N : Nat) (src : BitPtr) : Option Nat :=
  if src.len ≠ N ∨ src.head h ≠ 0 then none
  else some (src.pointer h)

/-- `TryFrom<&BitSlice> for BitArray` (`array/traits.rs` lines 165-180):
the by-value conversion returns the error exactly when `src.len() !=
V::const_bits()` — its only guard — and otherwise builds `Self::zeroed()`
and fills it with `copy_from_bitslice`.  The constructed array value is
produced by code outside the conversion (`zeroed`/`copy_from_bitslice`)
and plays no part in the success condition, so the success case is
embedded as the information-free `some ()`. -/
def BitArray.try_from_val (_h N : Nat) (src : BitPtr) : Option Unit :=
  if src.len ≠ N then none
  else some ()

/-- The §3 validity invariants for an input triple over an element with
log-size `h`: a real element type (`h ≤ 3`), a machine-word address that is
non-null and has at least `PTR_HEAD_BITS` trailing zeros, a head index below
the element width, a length of at most `REGION_MAX_BITS`, and a one-past-end
address that does not wrap past the top of the address space. -/
def Valid (h addr head bits : Nat) : Prop :=
  h ≤ 3 ∧ addr < 2 ^ 64 ∧ addr ≠ 0 ∧ addr % 2 ^ h = 0 ∧
    head < elemBits h ∧ bits ≤ REGION_MAX_BITS ∧
    addr + spanElts h head bits * elemBytes h < 2 ^ 64

instance (h addr head bits : Nat) : Decidable (Valid h addr head bits) := by
  unfold Valid; infer_instance

/-! ## Helper lemmas: bitwise bridges -/

/-- Bitwise-or of values occupying disjoint bit ranges is addition. -/
theorem lor_disjoint_eq_add {n a b : Nat} (ha : a % 2 ^ n = 0) (hb : b < 2 ^ n) :
    a ||| b = a + b := by
  obtain ⟨q, rfl⟩ := Nat.dvd_of_mod_eq_zero ha
  exact (Nat.mul_add_lt_is_or hb q).symm

/-- Masking a 64-bit value with the high mask `2 ^ 64 - 2 ^ m` clears its low
`m` bits. -/
theorem and_high_mask {x m : Nat} (hm : m ≤ 64) (hx : x < 2 ^ 64) :
    x &&& (2 ^ 64 - 2 ^ m) = 2 ^ m * (x / 2 ^ m) := by
  have key : (2 ^ 64 - 2 ^ m) = (2 ^ (64 - m) - 1) <<< m := by
    rw [Nat.shiftLeft_eq, Nat.sub_mul, ← Nat.pow_add, one_mul]
    congr 2
    omega
  have key2 : 2 ^ m * (x / 2 ^ m) = (x >>> m) <<< m := by
    rw [Nat.shiftRight_eq_div_pow, Nat.shiftLeft_eq, Nat.mul_comm]
  rw [key, key2]
  apply Nat.eq_of_testBit_eq
  intro i
  rcases lt_or_ge i m with hi | hi
  · have h1 : ¬ (m ≤ i) := by omega
    simp [Nat.testBit_shiftLeft, h1]
  · rcases lt_or_ge i 64 with hi64 | hi64
    · have h2 : i - m < 64 - m := by omega
      simp [Nat.testBit_shiftLeft, Nat.testBit_shiftRight, hi, h2,
        Nat.add_sub_cancel' hi]
    · have h1 : x.testBit i = false := Nat.testBit_lt_two_pow (by
        calc x < 2 ^ 64 := hx
        _ ≤ 2 ^ i := Nat.pow_le_pow_right (by omega) hi64)
      have h2 : (x >>> m).testBit (i - m) = false := by
        rw [Nat.testBit_shiftRight, Nat.add_sub_cancel' hi]
        exact h1
      simp [Nat.testBit_shiftLeft, h1, h2]

/-- The fuelled trailing-zero counter counts at least `k` zeros exactly when
`2 ^ k` divides the input, for any sufficient fuel. -/
theorem ctzAux_ge_iff : ∀ (k f n : Nat), k ≤ f → (k ≤ ctzAux f n ↔ 2 ^ k ∣ n)
  | 0, _, _, _ => by simp
  | k + 1, f + 1, n, hk => by
    unfold ctzAux
    rcases Nat.even_or_odd n with he | ho
    · have h2 : n % 2 = 0 := Nat.even_iff.mp he
      obtain ⟨m, rfl⟩ : ∃ m, n = 2 * m := ⟨n / 2, by omega⟩
      have hm : 2 * m / 2 = m := by omega
      simp only [h2, if_pos, hm]
      rw [Nat.succ_le_succ_iff]
      rw [ctzAux_ge_iff k f m (by omega)]
      constructor
      · intro hd
        rw [pow_succ, mul_comm (2 ^ k) 2]
        exact mul_dvd_mul_left 2 hd
      · intro hd
        rw [pow_succ, mul_comm (2 ^ k) 2] at hd
        exact (mul_dvd_mul_iff_left (by norm_num : (2:ℕ) ≠ 0)).mp hd
    · have h2 : ¬ (n % 2 = 0) := by
        have := Nat.odd_iff.mp ho; omega
      simp only [h2, if_neg, if_false]
      constructor
      · omega
      · intro hd
        exfalso
        have : (2:ℕ) ∣ n := dvd_trans (dvd_pow_self 2 (Nat.succ_ne_zero k)) hd
        omega

/-- Modelled `usize::trailing_zeros` is at least `k` exactly when `2 ^ k`
divides the word. -/
theorem trailingZeros_ge_iff {k n : Nat} (hk : k ≤ 64) :
    k ≤ trailingZeros n ↔ 2 ^ k ∣ n :=
  ctzAux_ge_iff k 64 n hk

/-! ## Helper lemmas: constant normal forms -/

theorem PTR_HEAD_BITS_eq (h : Nat) : PTR_HEAD_BITS h = h := by
  simp [PTR_HEAD_BITS, elemIndx, LEN_HEAD_BITS]

theorem PTR_ADDR_MASK_eq {h : Nat} (hh : h ≤ 3) :
    PTR_ADDR_MASK h = 2 ^ 64 - 2 ^ h := by
  interval_cases h <;> decide

theorem PTR_HEAD_MASK_eq {h : Nat} (hh : h ≤ 3) :
    PTR_HEAD_MASK h = 2 ^ h - 1 := by
  interval_cases h <;> decide

theorem REGION_MAX_BITS_eq : REGION_MAX_BITS = 2 ^ 61 - 1 := by decide

theorem elemBits_le {h : Nat} (hh : h ≤ 3) : elemBits h ≤ 64 := by
  interval_cases h <;> decide

theorem elemBits_pos (h : Nat) : 0 < elemBits h := by
  unfold elemBits
  exact Nat.mul_pos (by omega) (Nat.pos_pow_of_pos h (by omega))

/-- Specialization of the disjoint-or lemma to the three low head bits. -/
theorem lor_low3_eq_add {a b : Nat} (ha : a % 8 = 0) (hb : b < 8) :
    a ||| b = a + b := by
  have ha' : a % 2 ^ 3 = 0 := by simpa using ha
  have hb' : b < 2 ^ 3 := by simpa using hb
  exact lor_disjoint_eq_add ha' hb'

/-- An aligned machine-word address leaves room for one more element below the
top of the address space. -/
theorem aligned_add_pow_le {h addr : Nat} (hh : h ≤ 64) (hal : addr % 2 ^ h = 0)
    (hlt : addr < 2 ^ 64) : addr + 2 ^ h ≤ 2 ^ 64 := by
  obtain ⟨q, rfl⟩ := Nat.dvd_of_mod_eq_zero hal
  have hsplit : (2:ℕ) ^ 64 = 2 ^ h * 2 ^ (64 - h) := by
    rw [← Nat.pow_add]; congr 1; omega
  have hq : q < 2 ^ (64 - h) := by
    by_contra hq
    push_neg at hq
    have : 2 ^ h * 2 ^ (64 - h) ≤ 2 ^ h * q :=
      Nat.mul_le_mul_left _ hq
    omega
  have : 2 ^ h * (q + 1) ≤ 2 ^ h * 2 ^ (64 - h) :=
    Nat.mul_le_mul_left _ (by omega)
  calc 2 ^ h * q + 2 ^ h = 2 ^ h * (q + 1) := by ring
  _ ≤ 2 ^ h * 2 ^ (64 - h) := this
  _ = 2 ^ 64 := hsplit.symm

/-! ## Decode lemmas: the packing of `new_unchecked` in arithmetic form -/

/-- Under the §3 invariants the packed words of `new_unchecked` have a plain
arithmetic description: the pointer word is the address plus the high head
bits, and the length word is eight times the length plus the low head bits. -/
theorem new_unchecked_arith {h addr head bits : Nat} (hh : h ≤ 3)
    (hA : addr < 2 ^ 64) (hal : addr % 2 ^ h = 0) (hH : head < elemBits h)
    (hb : bits ≤ REGION_MAX_BITS) :
    BitPtr.new_unchecked h addr head bits =
      ⟨addr + head / 8, 8 * bits + head % 8⟩ := by
  have hdiv : head / 8 < 2 ^ h := by
    have : head < 2 ^ h * 8 := by
      have := hH; simp [elemBits] at this; omega
    exact Nat.div_lt_iff_lt_mul (by omega) |>.mpr this
  have hb8 : bits * 8 < 2 ^ 64 := by
    rw [REGION_MAX_BITS_eq] at hb
    have h61 : (2:ℕ) ^ 61 - 1 ≤ 2 ^ 61 - 1 := le_refl _
    have : (2:ℕ) ^ 64 = 2 ^ 61 * 8 := by norm_num
    omega
  unfold BitPtr.new_unchecked
  simp only
  have hptr : addr &&& PTR_ADDR_MASK h ||| head >>> LEN_HEAD_BITS
      = addr + head / 8 := by
    have e1 : addr &&& PTR_ADDR_MASK h = addr := by
      rw [PTR_ADDR_MASK_eq hh, and_high_mask (by omega) hA,
        Nat.mul_div_cancel' (Nat.dvd_of_mod_eq_zero hal)]
    have e2 : head >>> LEN_HEAD_BITS = head / 8 := by
      rw [Nat.shiftRight_eq_div_pow]
      norm_num [LEN_HEAD_BITS]
    rw [e1, e2]
    exact lor_disjoint_eq_add hal hdiv
  have hlen : (bits <<< LEN_HEAD_BITS) % 2 ^ 64 ||| (head &&& LEN_HEAD_MASK)
      = 8 * bits + head % 8 := by
    have e1 : (bits <<< LEN_HEAD_BITS) % 2 ^ 64 = 8 * bits := by
      rw [Nat.shiftLeft_eq]
      have e : bits * 2 ^ LEN_HEAD_BITS = 8 * bits := by
        have e8 : (2:ℕ) ^ LEN_HEAD_BITS = 8 := by decide
        rw [e8]; ring
      rw [e, Nat.mod_eq_of_lt (by omega)]
    have e2 : head &&& LEN_HEAD_MASK = head % 8 := by
      have e : LEN_HEAD_MASK = 2 ^ 3 - 1 := by decide
      rw [e, Nat.and_pow_two_sub_one_eq_mod]
    rw [e1, e2]
    exact lor_low3_eq_add (Nat.mul_mod_right 8 bits) (Nat.mod_lt head (by omega))
  rw [hptr, hlen]

/-- Decoding the base address from the arithmetic word form. -/
theorem pointer_arith {h A H L : Nat} (hh : h ≤ 3) (hA : A < 2 ^ 64)
    (hal : A % 2 ^ h = 0) (hH : H < elemBits h) :
    BitPtr.pointer h ⟨A + H / 8, L⟩ = A := by
  have hdiv : H / 8 < 2 ^ h := by
    have : H < 2 ^ h * 8 := by
      have := hH; simp [elemBits] at this; omega
    exact Nat.div_lt_iff_lt_mul (by omega) |>.mpr this
  have hroom : A + 2 ^ h ≤ 2 ^ 64 := aligned_add_pow_le (by omega) hal hA
  unfold BitPtr.pointer
  simp only
  rw [PTR_ADDR_MASK_eq hh, and_high_mask (by omega) (by omega)]
  obtain ⟨q, rfl⟩ := Nat.dvd_of_mod_eq_zero hal
  rw [Nat.mul_add_div (Nat.pos_pow_of_pos h (by omega)),
    Nat.div_eq_of_lt hdiv, Nat.add_zero]

/-- Decoding the head index from the arithmetic word form. -/
theorem head_arith {h A H B : Nat} (hh : h ≤ 3) (hA : A < 2 ^ 64)
    (hal : A % 2 ^ h = 0) (hH : H < elemBits h) :
    BitPtr.head h ⟨A + H / 8, 8 * B + H % 8⟩ = H := by
  have hdiv : H / 8 < 2 ^ h := by
    have : H < 2 ^ h * 8 := by
      have := hH; simp [elemBits] at this; omega
    exact Nat.div_lt_iff_lt_mul (by omega) |>.mpr this
  unfold BitPtr.head
  simp only
  have hmask : (A + H / 8) &&& PTR_HEAD_MASK h = H / 8 := by
    rw [PTR_HEAD_MASK_eq hh, Nat.and_pow_two_sub_one_eq_mod]
    obtain ⟨q, rfl⟩ := Nat.dvd_of_mod_eq_zero hal
    rw [Nat.mul_add_mod, Nat.mod_eq_of_lt hdiv]
  have hlen : (8 * B + H % 8) &&& LEN_HEAD_MASK = H % 8 := by
    have e : LEN_HEAD_MASK = 2 ^ 3 - 1 := by decide
    rw [e, Nat.and_pow_two_sub_one_eq_mod]
    have e8 : (2:ℕ) ^ 3 = 8 := by norm_num
    rw [e8]
    omega
  rw [hmask, hlen, Nat.shiftLeft_eq]
  have hsh : H / 8 * 2 ^ LEN_HEAD_BITS = 8 * (H / 8) := by
    have e8 : (2:ℕ) ^ LEN_HEAD_BITS = 8 := by decide
    rw [e8]; ring
  rw [hsh, lor_low3_eq_add (Nat.mul_mod_right 8 (H / 8)) (Nat.mod_lt H (by omega))]
  have hHlt : H < 2 ^ 8 := by
    have := elemBits_le hh; omega
  have he : 8 * (H / 8) + H % 8 = H := by omega
  rw [he, Nat.mod_eq_of_lt hHlt]

/-- Decoding the bit length from the arithmetic word form. -/
theorem len_arith {P H B : Nat} :
    BitPtr.len ⟨P, 8 * B + H % 8⟩ = B := by
  unfold BitPtr.len
  simp only
  rw [Nat.shiftRight_eq_div_pow]
  have e8 : (2:ℕ) ^ LEN_HEAD_BITS = 8 := by decide
  rw [e8, Nat.mul_add_div (by omega)]
  omega

/-- Claim C1 support: full round trip of the three decoded fields. -/
theorem raw_parts_arith {h addr head bits : Nat} (hh : h ≤ 3)
    (hA : addr < 2 ^ 64) (hal : addr % 2 ^ h = 0) (hH : head < elemBits h)
    (hb : bits ≤ REGION_MAX_BITS) :
    (BitPtr.new_unchecked h addr head bits).raw_parts h = (addr, head, bits) := by
  rw [new_unchecked_arith hh hA hal hH hb]
  unfold BitPtr.raw_parts
  rw [pointer_arith hh hA hal hH, head_arith hh hA hal hH, len_arith]

/-! ## Constructor success and rejection -/

/-- Under the §3 invariants the validated constructor succeeds and returns the
packed pointer. -/
theorem new_eq_some_of_valid {h addr head bits : Nat}
    (hv : Valid h addr head bits) :
    BitPtr.new h addr head bits = some (BitPtr.new_unchecked h addr head bits) := by
  obtain ⟨hh, hA, hnz, hal, hH, hb, hwrap⟩ := hv
  have htz : ¬ trailingZeros addr < PTR_HEAD_BITS h := by
    rw [PTR_HEAD_BITS_eq]
    push_neg
    exact (trailingZeros_ge_iff (by omega)).mpr (Nat.dvd_of_mod_eq_zero hal)
  unfold BitPtr.new
  rw [if_neg (by push_neg; exact ⟨hnz, by omega, by omega⟩)]
  simp only
  rw [Nat.mod_eq_of_lt hwrap, if_neg (by omega)]

/-- Claim C1: for every triple satisfying the §3 invariants, `new` returns
`some`, and `raw_parts` on the result is exactly the input triple. -/
theorem new_raw_parts_round_trip {h addr head bits : Nat}
    (hv : Valid h addr head bits) :
    ∃ p, BitPtr.new h addr head bits = some p ∧
      p.raw_parts h = (addr, head, bits) := by
  obtain ⟨hh, hA, hnz, hal, hH, hb, hwrap⟩ := hv
  exact ⟨BitPtr.new_unchecked h addr head bits,
    new_eq_some_of_valid ⟨hh, hA, hnz, hal, hH, hb, hwrap⟩,
    raw_parts_arith hh hA hal hH hb⟩

/-- Witness for C1 at the concrete valid triple `(4096, 9, 100)` over `u16`. -/
theorem new_raw_parts_round_trip_witness :
    Valid 1 4096 9 100 ∧
      ∃ p, BitPtr.new 1 4096 9 100 = some p ∧ p.raw_parts 1 = (4096, 9, 100) :=
  ⟨by decide, new_raw_parts_round_trip (by decide)⟩

/-- Claim C2: `new` returns `none` exactly when the address is null, the
address has fewer trailing zeros than `PTR_HEAD_BITS`, the length exceeds
`REGION_MAX_BITS`, or the one-past-end address wraps below the base address;
in particular the length and alignment bounds are tight. -/
theorem new_rejection_characterization :
    (∀ h addr head bits,
      (BitPtr.new h addr head bits = none ↔
        addr = 0 ∨ trailingZeros addr < PTR_HEAD_BITS h ∨
          REGION_MAX_BITS < bits ∨
          (addr + spanElts h head bits * elemBytes h) % 2 ^ 64 < addr))
    ∧ (∀ h addr head, BitPtr.new h addr head (REGION_MAX_BITS + 1) = none)
    ∧ (∀ h addr head, Valid h addr head REGION_MAX_BITS →
        (BitPtr.new h addr head REGION_MAX_BITS).isSome)
    ∧ (∀ h addr head bits, 1 ≤ h → trailingZeros addr = h - 1 →
        BitPtr.new h addr head bits = none)
    ∧ (∀ h addr head bits, trailingZeros addr = PTR_HEAD_BITS h →
        Valid h addr head bits → (BitPtr.new h addr head bits).isSome) := by
  refine ⟨?_, ?_, ?_, ?_, ?_⟩
  · intro h addr head bits
    constructor
    · intro hnone
      unfold BitPtr.new at hnone
      by_cases h1 : addr = 0 ∨ trailingZeros addr < PTR_HEAD_BITS h ∨
          bits > REGION_MAX_BITS
      · rcases h1 with a | b | c
        exacts [Or.inl a, Or.inr (Or.inl b), Or.inr (Or.inr (Or.inl c))]
      · rw [if_neg h1] at hnone
        simp only at hnone
        by_cases h2 : (addr + spanElts h head bits * elemBytes h) % 2 ^ 64 < addr
        · exact Or.inr (Or.inr (Or.inr h2))
        · rw [if_neg h2] at hnone
          exact absurd hnone (by simp)
    · intro hd
      unfold BitPtr.new
      by_cases h1 : addr = 0 ∨ trailingZeros addr < PTR_HEAD_BITS h ∨
          bits > REGION_MAX_BITS
      · rw [if_pos h1]
      · rw [if_neg h1]
        simp only
        have h2 : (addr + spanElts h head bits * elemBytes h) % 2 ^ 64 < addr := by
          push_neg at h1
          rcases hd with a | b | c | d
          · exact absurd a h1.1
          · exact absurd b (by omega)
          · omega
          · exact d
        rw [if_pos h2]
  · intro h addr head
    unfold BitPtr.new
    rw [if_pos (by omega)]
  · intro h addr head hv
    rw [new_eq_some_of_valid hv]
    rfl
  · intro h addr head bits h1 htz
    unfold BitPtr.new
    rw [if_pos (by rw [PTR_HEAD_BITS_eq]; omega)]
  · intro h addr head bits _ hv
    rw [new_eq_some_of_valid hv]
    rfl

/-- Witness for C2: concrete length-bound and alignment-bound instances. -/
theorem new_rejection_characterization_witness :
    BitPtr.new 0 8 0 (REGION_MAX_BITS + 1) = none
    ∧ (BitPtr.new 0 8 0 REGION_MAX_BITS).isSome
    ∧ BitPtr.new 2 6 0 5 = none
    ∧ (BitPtr.new 2 4 0 5).isSome :=
  ⟨new_rejection_characterization.2.1 0 8 0,
   new_rejection_characterization.2.2.1 0 8 0 (by decide),
   new_rejection_characterization.2.2.2.1 2 6 0 5 (by decide) (by decide),
   new_rejection_characterization.2.2.2.2 2 4 0 5 (by decide) (by decide)⟩

/-! ## Non-null packing, canonical empty, and equality -/

/-- A bitwise-or with a non-zero left operand is non-zero. -/
theorem lor_ne_zero_left {a b : Nat} (ha : a ≠ 0) : a ||| b ≠ 0 := by
  intro h0
  obtain ⟨i, hi⟩ := Nat.ne_zero_implies_bit_true ha
  have := congrArg (fun x => Nat.testBit x i) h0
  simp [hi] at this

/-- Masking an aligned address with the address mask leaves it unchanged. -/
theorem aligned_and_mask {h addr : Nat} (hh : h ≤ 3) (hA : addr < 2 ^ 64)
    (hal : addr % 2 ^ h = 0) : addr &&& PTR_ADDR_MASK h = addr := by
  rw [PTR_ADDR_MASK_eq hh, and_high_mask (by omega) hA,
    Nat.mul_div_cancel' (Nat.dvd_of_mod_eq_zero hal)]

/-- Claim C9: no constructor of an inhabited or empty-but-addressed pointer
produces the all-zero two-word pattern: the packed pointer word of `EMPTY`, of
`new_unchecked` under its preconditions, of every successful `new`, and of
every `uninhabited` result is non-zero. -/
theorem constructors_never_all_zero :
    (∀ h, (BitPtr.EMPTY h).ptrWord ≠ 0)
    ∧ (∀ h addr head bits, Valid h addr head bits →
        (BitPtr.new_unchecked h addr head bits).ptrWord ≠ 0)
    ∧ (∀ h addr head bits p, h ≤ 3 → addr < 2 ^ 64 →
        BitPtr.new h addr head bits = some p → p.ptrWord ≠ 0)
    ∧ (∀ h addr p, BitPtr.uninhabited h addr = some p → p.ptrWord ≠ 0) := by
  refine ⟨?_, ?_, ?_, ?_⟩
  · intro h
    have := Nat.pos_pow_of_pos h (by omega : 0 < 2)
    simp only [BitPtr.EMPTY]
    omega
  · intro h addr head bits hv
    obtain ⟨hh, hA, hnz, hal, hH, hb, -⟩ := hv
    rw [new_unchecked_arith hh hA hal hH hb]
    simp only
    omega
  · intro h addr head bits p hh hA hp
    unfold BitPtr.new at hp
    by_cases h1 : addr = 0 ∨ trailingZeros addr < PTR_HEAD_BITS h ∨
        bits > REGION_MAX_BITS
    · rw [if_pos h1] at hp
      exact absurd hp (by simp)
    · rw [if_neg h1] at hp
      simp only at hp
      by_cases h2 : (addr + spanElts h head bits * elemBytes h) % 2 ^ 64 < addr
      · rw [if_pos h2] at hp
        exact absurd hp (by simp)
      · rw [if_neg h2] at hp
        push_neg at h1
        have htz := h1.2.1
        rw [PTR_HEAD_BITS_eq] at htz
        have hal : addr % 2 ^ h = 0 := Nat.mod_eq_zero_of_dvd
          ((trailingZeros_ge_iff (by omega)).mp (by omega))
        obtain rfl := Option.some_injective _ hp
        unfold BitPtr.new_unchecked
        simp only
        apply lor_ne_zero_left
        rw [aligned_and_mask hh hA hal]
        exact h1.1
  · intro h addr p hp
    unfold BitPtr.uninhabited at hp
    by_cases h1 : trailingZeros addr < PTR_HEAD_BITS h
    · rw [if_pos h1] at hp
      exact absurd hp (by simp)
    · rw [if_neg h1] at hp
      have := Option.some_injective _ hp
      subst this
      by_cases h2 : addr = 0
      · rw [if_pos h2]
        have := Nat.pos_pow_of_pos h (by omega : 0 < 2)
        simp only [BitPtr.EMPTY]
        omega
      · rw [if_neg h2]
        exact h2

/-- Witness for C9 at concrete constructor calls. -/
theorem constructors_never_all_zero_witness :
    (BitPtr.EMPTY 2).ptrWord ≠ 0
    ∧ (BitPtr.new_unchecked 1 4096 9 100).ptrWord ≠ 0
    ∧ (BitPtr.new_unchecked 0 8 0 4).ptrWord ≠ 0
    ∧ ∀ p, BitPtr.uninhabited 0 5 = some p → p.ptrWord ≠ 0 :=
  ⟨constructors_never_all_zero.1 2,
   constructors_never_all_zero.2.1 1 4096 9 100 (by decide),
   constructors_never_all_zero.2.2.1 0 8 0 4 _ (by decide) (by decide) (by decide),
   fun p => constructors_never_all_zero.2.2.2 0 5 p⟩

/-- Counterexample to C4 as stated: over `u8`, the two zero-length pointers at
addresses `8` and `16` both decode `len() = 0`, yet the pointer equality
relation distinguishes them because it also compares the addresses. -/
theorem empty_pointers_not_address_blind :
    (BitPtr.new_unchecked 0 8 0 0).len = 0
    ∧ (BitPtr.new_unchecked 0 16 0 0).len = 0
    ∧ BitPtr.eq 0 0 (BitPtr.new_unchecked 0 8 0 0)
        (BitPtr.new_unchecked 0 16 0 0) = false := by
  decide

/-- Claim C4 (amended): the canonical empty pointer has `head = 0` and
`len = 0` at the dangling address `2 ^ h`; pointer equality at equal widths
holds exactly when the decoded addresses, heads, and lengths all agree — in
particular two zero-length pointers are equal only when their addresses also
agree. -/
theorem canonical_empty_and_eq_characterization :
    (∀ h, h ≤ 3 → (BitPtr.EMPTY h).raw_parts h = (2 ^ h, 0, 0))
    ∧ (∀ h a1 h1 b1 a2 h2 b2, Valid h a1 h1 b1 → Valid h a2 h2 b2 →
        (BitPtr.eq h h (BitPtr.new_unchecked h a1 h1 b1)
            (BitPtr.new_unchecked h a2 h2 b2) = true ↔
          a1 = a2 ∧ h1 = h2 ∧ b1 = b2)) := by
  constructor
  · intro h hh
    have hlt : (2:ℕ) ^ h < 2 ^ 64 := Nat.pow_lt_pow_right (by omega) (by omega)
    have he : BitPtr.EMPTY h = BitPtr.new_unchecked h (2 ^ h) 0 0 := by
      rw [new_unchecked_arith hh hlt (Nat.mod_self _) (elemBits_pos h) (by omega)]
      rfl
    rw [he]
    exact raw_parts_arith hh hlt (Nat.mod_self _) (elemBits_pos h) (by omega)
  · intro h a1 h1 b1 a2 h2 b2 hv1 hv2
    obtain ⟨hh, hA1, -, hal1, hH1, hb1, -⟩ := hv1
    obtain ⟨-, hA2, -, hal2, hH2, hb2, -⟩ := hv2
    unfold BitPtr.eq
    rw [new_unchecked_arith hh hA1 hal1 hH1 hb1,
      new_unchecked_arith hh hA2 hal2 hH2 hb2,
      pointer_arith hh hA1 hal1 hH1, pointer_arith hh hA2 hal2 hH2,
      head_arith hh hA1 hal1 hH1, head_arith hh hA2 hal2 hH2,
      len_arith, len_arith]
    simp [and_assoc]

/-- Witness for the amended C4 at two concrete valid pointers. -/
theorem canonical_empty_and_eq_characterization_witness :
    (BitPtr.EMPTY 1).raw_parts 1 = (2, 0, 0)
    ∧ (BitPtr.eq 0 0 (BitPtr.new_unchecked 0 8 0 0)
          (BitPtr.new_unchecked 0 16 0 0) = true ↔ (8:ℕ) = 16 ∧ True ∧ True) := by
  constructor
  · exact canonical_empty_and_eq_characterization.1 1 (by omega)
  · have := canonical_empty_and_eq_characterization.2 0 8 0 0 16 0 0
      (by decide) (by decide)
    simpa using this

/-- Counterexample to C8 as stated: over `u16` the misaligned address `1`
drives `uninhabited` into its alignment assertion — a panic, modelled as
`none` — rather than a fallback to the canonical empty value. -/
theorem uninhabited_misaligned_asserts :
    BitPtr.uninhabited 1 1 = none
    ∧ BitPtr.uninhabited 1 1 ≠ some (BitPtr.EMPTY 1)
    ∧ trailingZeros 1 < PTR_HEAD_BITS 1 := by
  decide

/-- Claim C8 (amended): `uninhabited` builds the zero-length pointer that
retains the given address with head 0 and length 0; it falls back to the
canonical empty value exactly when the address is null, and an insufficiently
aligned address instead trips the alignment assertion (an abort). -/
theorem uninhabited_characterization :
    ∀ h addr, h ≤ 3 → addr < 2 ^ 64 →
      (trailingZeros addr < PTR_HEAD_BITS h → BitPtr.uninhabited h addr = none)
      ∧ (addr = 0 → BitPtr.uninhabited h addr = some (BitPtr.EMPTY h))
      ∧ (addr ≠ 0 → PTR_HEAD_BITS h ≤ trailingZeros addr →
          ∃ p, BitPtr.uninhabited h addr = some p ∧
            p.raw_parts h = (addr, 0, 0)) := by
  intro h addr hh hA
  refine ⟨?_, ?_, ?_⟩
  · intro hlt
    unfold BitPtr.uninhabited
    rw [if_pos hlt]
  · intro hz
    subst hz
    unfold BitPtr.uninhabited
    rw [if_neg (by
      rw [PTR_HEAD_BITS_eq]
      push_neg
      exact (trailingZeros_ge_iff (by omega)).mpr (dvd_zero _)), if_pos rfl]
  · intro hnz htz
    have hal : addr % 2 ^ h = 0 := Nat.mod_eq_zero_of_dvd
      ((trailingZeros_ge_iff (by omega)).mp (by rw [PTR_HEAD_BITS_eq] at htz; omega))
    refine ⟨⟨addr, 0⟩, ?_, ?_⟩
    · unfold BitPtr.uninhabited
      rw [if_neg (by omega), if_neg hnz]
    · have he : (⟨addr, 0⟩ : BitPtr) = BitPtr.new_unchecked h addr 0 0 := by
        rw [new_unchecked_arith hh hA hal (elemBits_pos h) (by omega)]
        rfl
      rw [he]
      exact raw_parts_arith hh hA hal (elemBits_pos h) (by omega)

/-- Witness for the amended C8 at the three relevant concrete addresses. -/
theorem uninhabited_characterization_witness :
    BitPtr.uninhabited 1 1 = none
    ∧ BitPtr.uninhabited 1 0 = some (BitPtr.EMPTY 1)
    ∧ ∃ p, BitPtr.uninhabited 1 2 = some p ∧ p.raw_parts 1 = (2, 0, 0) :=
  ⟨(uninhabited_characterization 1 1 (by omega) (by decide)).1 (by decide),
   (uninhabited_characterization 1 0 (by omega) (by decide)).2.1 rfl,
   (uninhabited_characterization 1 2 (by omega) (by decide)).2.2
     (by omega) (by decide)⟩

/-! ## Elements, tail, conversions, and pointer distance -/

theorem elemBits_eq_pow (h : Nat) : elemBits h = 2 ^ (3 + h) := by
  unfold elemBits
  rw [Nat.pow_add]

/-- Rounding-up division, expressed through the floor quotient and a
remainder test. -/
theorem ceil_div_eq {w : Nat} (hw : 0 < w) (t : Nat) :
    t / w + (if t % w ≠ 0 then 1 else 0) = (t + (w - 1)) / w := by
  obtain ⟨q, r, hr, rfl⟩ : ∃ q r, r < w ∧ t = w * q + r :=
    ⟨t / w, t % w, Nat.mod_lt _ hw, (Nat.div_add_mod t w).symm⟩
  have hq : (w * q + r) / w = q := by
    rw [Nat.mul_add_div hw, Nat.div_eq_of_lt hr, Nat.add_zero]
  have hmod : (w * q + r) % w = r := by
    rw [Nat.mul_add_mod, Nat.mod_eq_of_lt hr]
  rw [hq, hmod]
  by_cases hz : r = 0
  · subst hz
    rw [if_neg (by omega)]
    have h2 : w * q + 0 + (w - 1) = w * q + (w - 1) := by omega
    rw [h2, Nat.mul_add_div hw, Nat.div_eq_of_lt (by omega)]
  · rw [if_pos hz]
    have h1 : w * q + r + (w - 1) = w * (q + 1) + (r - 1) := by
      have : w * (q + 1) = w * q + w := by ring
      omega
    rw [h1, Nat.mul_add_div hw, Nat.div_eq_of_lt (by omega)]

/-- Decoding `elements()` of a packed valid pointer: the rounded-up
quotient of `head + bits` by the element width. -/
theorem elements_arith {h addr head bits : Nat} (hh : h ≤ 3)
    (hA : addr < 2 ^ 64) (hal : addr % 2 ^ h = 0) (hH : head < elemBits h)
    (hb : bits ≤ REGION_MAX_BITS) :
    (BitPtr.new_unchecked h addr head bits).elements h
      = (head + bits + (elemBits h - 1)) / elemBits h := by
  have hw : 0 < elemBits h := elemBits_pos h
  have hdvd : (2:ℕ) ^ (3 + h) ∣ 2 ^ 8 := Nat.pow_dvd_pow 2 (by omega)
  have hdec := new_unchecked_arith hh hA hal hH hb
  have hmask : elemMask h = 2 ^ (3 + h) - 1 := by
    unfold elemMask
    rw [elemBits_eq_pow]
  unfold BitPtr.elements
  rw [hdec]
  simp only [len_arith, head_arith hh hA hal hH]
  rw [Nat.shiftRight_eq_div_pow, hmask, Nat.and_pow_two_sub_one_eq_mod,
    Nat.mod_mod_of_dvd _ hdvd, ← elemBits_eq_pow]
  have := ceil_div_eq hw (bits + head)
  have hcomm : bits + head = head + bits := by omega
  rw [hcomm] at this ⊢
  rw [← this]
  unfold elemIndx
  rw [← elemBits_eq_pow]

/-- Decoding `tail()` of a packed valid pointer. -/
theorem tail_arith {h addr head bits : Nat} (hh : h ≤ 3)
    (hA : addr < 2 ^ 64) (hal : addr % 2 ^ h = 0) (hH : head < elemBits h)
    (hb : bits ≤ REGION_MAX_BITS) :
    (BitPtr.new_unchecked h addr head bits).tail h
      = (if head = 0 ∧ bits = 0 then 0
         else if (head + bits) % elemBits h = 0 then elemBits h
         else (head + bits) % elemBits h) := by
  have hw : 0 < elemBits h := elemBits_pos h
  have hwle : elemBits h ≤ 64 := elemBits_le hh
  have hdec := new_unchecked_arith hh hA hal hH hb
  have hmask : elemMask h = 2 ^ (3 + h) - 1 := by
    unfold elemMask
    rw [elemBits_eq_pow]
  unfold BitPtr.tail
  rw [hdec]
  simp only [len_arith, head_arith hh hA hal hH]
  rw [hmask, Nat.and_pow_two_sub_one_eq_mod, ← elemBits_eq_pow]
  by_cases hz : head = 0 ∧ bits = 0
  · rw [if_pos hz, if_pos hz]
  · rw [if_neg hz, if_neg hz]
    by_cases hm : (head + bits) % elemBits h = 0
    · rw [if_pos hm, if_pos hm]
      have h1 : (1:ℕ) <<< elemIndx h = elemBits h := by
        rw [Nat.shiftLeft_eq, Nat.one_mul, elemBits_eq_pow]
        rfl
      rw [h1, hm, Nat.or_zero, Nat.mod_eq_of_lt (by omega)]
    · rw [if_neg hm, if_neg hm]
      have hlt : (head + bits) % elemBits h < elemBits h := Nat.mod_lt _ hw
      rw [Nat.zero_shiftLeft, Nat.zero_or, Nat.mod_eq_of_lt (by omega)]

/-- Claim C6: `elements()` is `(head + len)` divided by the element width
rounded up, and `tail()` is `(head + len) mod width` with an exact non-empty
multiple remapped to the full width, and `0` only for the truly empty
pointer. -/
theorem elements_tail_formulas {h addr head bits : Nat}
    (hv : Valid h addr head bits) :
    (BitPtr.new_unchecked h addr head bits).elements h
        = (head + bits + (elemBits h - 1)) / elemBits h
    ∧ (BitPtr.new_unchecked h addr head bits).tail h
        = (if head = 0 ∧ bits = 0 then 0
           else if (head + bits) % elemBits h = 0 then elemBits h
           else (head + bits) % elemBits h) := by
  obtain ⟨hh, hA, hnz, hal, hH, hb, -⟩ := hv
  exact ⟨elements_arith hh hA hal hH hb, tail_arith hh hA hal hH hb⟩

/-- Witness for C6 at the spec's literal instance `head = 2, length = 20`
over `u8`: three elements and tail six. -/
theorem elements_tail_formulas_witness :
    Valid 0 8 2 20
    ∧ (BitPtr.new_unchecked 0 8 2 20).elements 0 = 3
    ∧ (BitPtr.new_unchecked 0 8 2 20).tail 0 = 6 :=
  ⟨by decide,
   ((elements_tail_formulas (by decide : Valid 0 8 2 20)).1).trans (by decide),
   ((elements_tail_formulas (by decide : Valid 0 8 2 20)).2).trans (by decide)⟩

/-- Claim C10: the shared- and exclusive-reference conversions
(`array/traits.rs` lines 182-216) succeed — and return the slice's base
address — exactly when the slice length equals the array's constant
capacity `N` and the head index is zero; the by-value conversion (lines
165-180) succeeds exactly when the length matches, regardless of the
head. -/
theorem bitarray_try_from_characterization {h N addr head bits : Nat}
    (hv : Valid h addr head bits) :
    (BitArray.try_from_ref h N (BitPtr.new_unchecked h addr head bits)
        = if bits = N ∧ head = 0 then some addr else none)
    ∧ (BitArray.try_from_mut h N (BitPtr.new_unchecked h addr head bits)
        = if bits = N ∧ head = 0 then some addr else none)
    ∧ ((BitArray.try_from_val h N (BitPtr.new_unchecked h addr head bits)).isSome
        ↔ bits = N) := by
  obtain ⟨hh, hA, hnz, hal, hH, hb, -⟩ := hv
  have hdec := new_unchecked_arith hh hA hal hH hb
  refine ⟨?_, ?_, ?_⟩
  · unfold BitArray.try_from_ref
    rw [hdec]
    simp only [len_arith, head_arith hh hA hal hH, pointer_arith hh hA hal hH]
    by_cases hc : bits = N ∧ head = 0
    · rw [if_pos hc, if_neg (by omega)]
    · rw [if_neg hc, if_pos (by omega)]
  · unfold BitArray.try_from_mut
    rw [hdec]
    simp only [len_arith, head_arith hh hA hal hH, pointer_arith hh hA hal hH]
    by_cases hc : bits = N ∧ head = 0
    · rw [if_pos hc, if_neg (by omega)]
    · rw [if_neg hc, if_pos (by omega)]
  · unfold BitArray.try_from_val
    rw [hdec]
    simp only [len_arith]
    by_cases hc : bits = N
    · rw [if_neg (by omega)]
      simp [hc]
    · rw [if_pos (by omega)]
      simp [hc]

/-- Witness for C10 over `u8` with capacity 16: an aligned exact-length slice
converts by reference, a misaligned one converts only by value. -/
theorem bitarray_try_from_characterization_witness :
    (BitArray.try_from_ref 0 16 (BitPtr.new_unchecked 0 8 0 16)
        = if (16:ℕ) = 16 ∧ (0:ℕ) = 0 then some 8 else none)
    ∧ (BitArray.try_from_ref 0 16 (BitPtr.new_unchecked 0 8 2 16)
        = if (16:ℕ) = 16 ∧ (2:ℕ) = 0 then some 8 else none)
    ∧ ((BitArray.try_from_val 0 16 (BitPtr.new_unchecked 0 8 2 16)).isSome
        ↔ (16:ℕ) = 16) :=
  ⟨(bitarray_try_from_characterization (by decide : Valid 0 8 0 16)).1,
   (bitarray_try_from_characterization (by decide : Valid 0 8 2 16)).1,
   (bitarray_try_from_characterization (by decide : Valid 0 8 2 16)).2.2⟩

/-- Claim C7: `ptr_diff` returns the address delta in whole elements (an
exact division, both addresses being element-aligned) and the signed head
difference, and takes the spec's four literal values on the four 8-bit
configurations. -/
theorem ptr_diff_characterization :
    (∀ h aA hA bA aB hB bB, Valid h aA hA bA → Valid h aB hB bB →
      BitPtr.ptr_diff h (BitPtr.new_unchecked h aA hA bA)
          (BitPtr.new_unchecked h aB hB bB)
        = (((aB : Int) - aA) / (2 ^ h : Int), (hB : Int) - hA)
      ∧ (((aB : Int) - aA) / (2 ^ h : Int)) * (2 ^ h : Int) = (aB : Int) - aA)
    ∧ (∀ addr, Valid 0 addr 2 1 → Valid 0 (addr + 1) 4 1 →
        BitPtr.ptr_diff 0 (BitPtr.new_unchecked 0 addr 2 1)
          (BitPtr.new_unchecked 0 (addr + 1) 4 1) = (1, 2))
    ∧ (∀ addr, Valid 0 addr 5 1 → Valid 0 (addr + 1) 2 1 →
        BitPtr.ptr_diff 0 (BitPtr.new_unchecked 0 addr 5 1)
          (BitPtr.new_unchecked 0 (addr + 1) 2 1) = (1, -3))
    ∧ (∀ addr, Valid 0 (addr + 1) 0 1 → Valid 0 addr 4 1 →
        BitPtr.ptr_diff 0 (BitPtr.new_unchecked 0 (addr + 1) 0 1)
          (BitPtr.new_unchecked 0 addr 4 1) = (-1, 4))
    ∧ (∀ addr, Valid 0 (addr + 1) 6 1 → Valid 0 addr 1 1 →
        BitPtr.ptr_diff 0 (BitPtr.new_unchecked 0 (addr + 1) 6 1)
          (BitPtr.new_unchecked 0 addr 1 1) = (-1, -5)) := by
  have main : ∀ h aA hA bA aB hB bB, Valid h aA hA bA → Valid h aB hB bB →
      BitPtr.ptr_diff h (BitPtr.new_unchecked h aA hA bA)
          (BitPtr.new_unchecked h aB hB bB)
        = (((aB : Int) - aA) / (2 ^ h : Int), (hB : Int) - hA)
      ∧ (((aB : Int) - aA) / (2 ^ h : Int)) * (2 ^ h : Int) = (aB : Int) - aA := by
    intro h aA hA bA aB hB bB hv1 hv2
    obtain ⟨hh, hA1, -, hal1, hH1, hb1, -⟩ := hv1
    obtain ⟨-, hA2, -, hal2, hH2, hb2, -⟩ := hv2
    have hdvd : ((2:Int) ^ h) ∣ ((aB : Int) - aA) := by
      have d1 := Int.natCast_dvd_natCast.mpr (Nat.dvd_of_mod_eq_zero hal1)
      have d2 := Int.natCast_dvd_natCast.mpr (Nat.dvd_of_mod_eq_zero hal2)
      push_cast at d1 d2
      exact dvd_sub d2 d1
    constructor
    · unfold BitPtr.ptr_diff
      rw [new_unchecked_arith hh hA1 hal1 hH1 hb1,
        new_unchecked_arith hh hA2 hal2 hH2 hb2,
        pointer_arith hh hA1 hal1 hH1, pointer_arith hh hA2 hal2 hH2,
        head_arith hh hA1 hal1 hH1, head_arith hh hA2 hal2 hH2]
      unfold elemBytes
      norm_num
    · exact Int.ediv_mul_cancel hdvd
  refine ⟨main, ?_, ?_, ?_, ?_⟩
  all_goals
    intro addr hv1 hv2
    rw [(main 0 _ _ _ _ _ _ hv1 hv2).1]
    push_cast
    norm_num

/-- Witness for C7 at base address 256 over `u8`. -/
theorem ptr_diff_characterization_witness :
    BitPtr.ptr_diff 0 (BitPtr.new_unchecked 0 256 2 1)
        (BitPtr.new_unchecked 0 257 4 1) = (1, 2)
    ∧ BitPtr.ptr_diff 0 (BitPtr.new_unchecked 0 256 5 1)
        (BitPtr.new_unchecked 0 257 2 1) = (1, -3)
    ∧ BitPtr.ptr_diff 0 (BitPtr.new_unchecked 0 257 0 1)
        (BitPtr.new_unchecked 0 256 4 1) = (-1, 4)
    ∧ BitPtr.ptr_diff 0 (BitPtr.new_unchecked 0 257 6 1)
        (BitPtr.new_unchecked 0 256 1 1) = (-1, -5) :=
  ⟨ptr_diff_characterization.2.1 256 (by decide) (by decide),
   ptr_diff_characterization.2.2.1 256 (by decide) (by decide),
   ptr_diff_characterization.2.2.2.1 256 (by decide) (by decide),
   ptr_diff_characterization.2.2.2.2 256 (by decide) (by decide)⟩

/-! ## Head increment and rollover -/

/-- One step of `incr_head` in arithmetic form: the head advances by one
modulo the element width and the address gains one element exactly on
rollover. -/
theorem incr_head_arith {h A H B : Nat} (hh : h ≤ 3) (hal : A % 2 ^ h = 0)
    (hA : A < 2 ^ 64) (hH : H < elemBits h) (hB : B ≤ REGION_MAX_BITS)
    (hroll : H + 1 = elemBits h → A + 2 ^ h < 2 ^ 64) :
    BitPtr.incr_head h ⟨A + H / 8, 8 * B + H % 8⟩
      = ⟨(A + ((H + 1) / elemBits h) * 2 ^ h) + ((H + 1) % elemBits h) / 8,
         8 * B + ((H + 1) % elemBits h) % 8⟩ := by
  have hw : 0 < elemBits h := elemBits_pos h
  have h8w : (8:ℕ) ∣ elemBits h := ⟨2 ^ h, rfl⟩
  have hwle : elemBits h ≤ 64 := elemBits_le hh
  have hB8 : 8 * B + H % 8 < 2 ^ 64 := by
    rw [REGION_MAX_BITS_eq] at hB
    have : (2:ℕ) ^ 64 = 8 * 2 ^ 61 := by norm_num
    omega
  have e8 : (2:ℕ) ^ 3 = 8 := by norm_num
  unfold BitPtr.incr_head
  simp only [head_arith hh hA hal hH]
  have hlenw : (8 * B + H % 8) &&& ((2 ^ 64 - 1) ^^^ LEN_HEAD_MASK)
      ||| ((H + 1) &&& LEN_HEAD_MASK) = 8 * B + ((H + 1) % elemBits h) % 8 := by
    have hC : (2 ^ 64 - 1) ^^^ LEN_HEAD_MASK = 2 ^ 64 - 2 ^ 3 := by decide
    rw [hC, and_high_mask (by omega) hB8]
    have e1 : (8 * B + H % 8) / 2 ^ 3 = B := by
      rw [e8, Nat.mul_add_div (by omega)]
      omega
    have e2 : (H + 1) &&& LEN_HEAD_MASK = (H + 1) % 8 := by
      have e : LEN_HEAD_MASK = 2 ^ 3 - 1 := by decide
      rw [e, Nat.and_pow_two_sub_one_eq_mod]
    rw [e1, e2, e8,
      lor_low3_eq_add (Nat.mul_mod_right 8 B) (Nat.mod_lt _ (by omega)),
      Nat.mod_mod_of_dvd (H + 1) h8w]
  have hmem : (A + H / 8) &&& PTR_ADDR_MASK h = A := by
    have := pointer_arith (L := 0) hh hA hal hH
    unfold BitPtr.pointer at this
    exact this
  have hptrw : (((A + H / 8) &&& PTR_ADDR_MASK h) + (H + 1) >>> LEN_HEAD_BITS)
        % 2 ^ 64
      = (A + ((H + 1) / elemBits h) * 2 ^ h) + ((H + 1) % elemBits h) / 8 := by
    have esh : (H + 1) >>> LEN_HEAD_BITS = (H + 1) / 8 := by
      rw [Nat.shiftRight_eq_div_pow]
      norm_num [LEN_HEAD_BITS]
    rw [hmem, esh]
    have hle : A + 2 ^ h ≤ 2 ^ 64 := aligned_add_pow_le (by omega) hal hA
    by_cases hc : H + 1 = elemBits h
    · have hd : (H + 1) / 8 = 2 ^ h := by
        rw [hc]
        unfold elemBits
        rw [Nat.mul_div_cancel_left _ (by omega : (0:ℕ) < 8)]
      rw [hd, hc, Nat.div_self hw, Nat.mod_self, Nat.one_mul, Nat.zero_div,
        Nat.add_zero, Nat.mod_eq_of_lt (hroll hc)]
    · have hlt : H + 1 < elemBits h := by omega
      have hd8 : (H + 1) / 8 < 2 ^ h := by
        apply Nat.div_lt_iff_lt_mul (by omega) |>.mpr
        have := hlt
        unfold elemBits at this
        omega
      rw [Nat.div_eq_of_lt hlt, Nat.mod_eq_of_lt hlt, Nat.zero_mul,
        Nat.mod_eq_of_lt (by omega)]
      omega
  rw [hlenw, hptrw]

/-- Iterating `incr_head` in arithmetic form, for up to one full element of
steps. -/
theorem incrIter_arith {h B : Nat} (hh : h ≤ 3) (hB : B ≤ REGION_MAX_BITS) :
    ∀ (n A H : Nat), A % 2 ^ h = 0 → A < 2 ^ 64 → H < elemBits h →
      n ≤ elemBits h → (elemBits h ≤ H + n → A + 2 ^ h < 2 ^ 64) →
      BitPtr.incrIter h n ⟨A + H / 8, 8 * B + H % 8⟩
        = ⟨(A + ((H + n) / elemBits h) * 2 ^ h) + ((H + n) % elemBits h) / 8,
           8 * B + ((H + n) % elemBits h) % 8⟩
  | 0, A, H, hal, hA, hH, hn, hroll => by
    simp only [BitPtr.incrIter]
    rw [Nat.add_zero, Nat.div_eq_of_lt hH, Nat.mod_eq_of_lt hH, Nat.zero_mul,
      Nat.add_zero]
  | n + 1, A, H, hal, hA, hH, hn, hroll => by
    have hw : 0 < elemBits h := elemBits_pos h
    simp only [BitPtr.incrIter]
    rw [incr_head_arith hh hal hA hH hB (fun hc => hroll (by omega))]
    by_cases hc : H + 1 = elemBits h
    · have hnw : n < elemBits h := by omega
      rw [hc, Nat.div_self hw, Nat.mod_self, Nat.one_mul, Nat.zero_div,
        Nat.add_zero]
      have IH := incrIter_arith hh hB n (A + 2 ^ h) 0
        (by rw [Nat.add_mod_right]; exact hal) (hroll (by omega)) hw
        (by omega) (fun hcon => absurd hcon (by omega))
      rw [Nat.zero_div, Nat.zero_mod, Nat.add_zero, Nat.add_zero] at IH
      rw [show (8:ℕ) * B + 0 % 8 = 8 * B from rfl]
      rw [IH, Nat.zero_add, Nat.div_eq_of_lt hnw, Nat.mod_eq_of_lt hnw,
        Nat.zero_mul, Nat.add_zero]
      have e : H + (n + 1) = n + elemBits h := by omega
      rw [e, Nat.add_div_right _ hw, Nat.div_eq_of_lt hnw, Nat.add_mod_right,
        Nat.mod_eq_of_lt hnw, Nat.zero_add, Nat.one_mul]
    · have hlt : H + 1 < elemBits h := by omega
      rw [Nat.div_eq_of_lt hlt, Nat.mod_eq_of_lt hlt, Nat.zero_mul,
        Nat.add_zero]
      have IH := incrIter_arith hh hB n A (H + 1) hal hA hlt (by omega)
        (fun hcon => hroll (by omega))
      rw [IH]
      have e : H + 1 + n = H + (n + 1) := by omega
      rw [e]

/-- `incr_head` never changes the decoded length, on any pointer whose length
word is a machine word. -/
theorem incr_head_preserves_len {h : Nat} (q : BitPtr) (hq : q.lenWord < 2 ^ 64) :
    (q.incr_head h).len = q.len := by
  have e8 : (2:ℕ) ^ 3 = 8 := by norm_num
  unfold BitPtr.incr_head BitPtr.len
  simp only
  have hC : (2 ^ 64 - 1) ^^^ LEN_HEAD_MASK = 2 ^ 64 - 2 ^ 3 := by decide
  have e2 : (q.head h + 1) &&& LEN_HEAD_MASK = (q.head h + 1) % 8 := by
    have e : LEN_HEAD_MASK = 2 ^ 3 - 1 := by decide
    rw [e, Nat.and_pow_two_sub_one_eq_mod]
  have eL : (2:ℕ) ^ LEN_HEAD_BITS = 8 := by decide
  rw [hC, and_high_mask (by omega) hq, e2, e8,
    lor_low3_eq_add (Nat.mul_mod_right 8 _) (Nat.mod_lt _ (by omega)),
    Nat.shiftRight_eq_div_pow, Nat.shiftRight_eq_div_pow, eL,
    Nat.mul_add_div (by omega), Nat.div_eq_of_lt (Nat.mod_lt _ (by omega)),
    Nat.add_zero]

/-- Counterexample to C5 as stated: the triple `(2 ^ 64 - 1, 0, 0)` over `u8`
satisfies every §3 invariant, yet eight `incr_head` calls wrap the pointer
word around the address space, leaving `pointer()` at `0` instead of the next
element `2 ^ 64`. -/
theorem incr_head_wrap_counterexample :
    Valid 0 (2 ^ 64 - 1) 0 0
    ∧ (BitPtr.incrIter 0 (elemBits 0)
        (BitPtr.new_unchecked 0 (2 ^ 64 - 1) 0 0)).pointer 0 = 0
    ∧ (BitPtr.new_unchecked 0 (2 ^ 64 - 1) 0 0).pointer 0 = 2 ^ 64 - 1
    ∧ (0:Nat) ≠ (2 ^ 64 - 1) + 2 ^ 0 := by
  decide

/-- Claim C5 (amended): on a valid pointer whose base address plus one
element does not overflow the address space, `elemBits` many `incr_head`
calls restore `head()` and advance `pointer()` by exactly one element while
preserving `len()`; `len()` is unchanged by any single call on any pointer,
and a single call rolls the address exactly when the incremented head equals
the element width. -/
theorem incr_head_rollover {h addr head bits : Nat} (hv : Valid h addr head bits)
    (hroom : addr + 2 ^ h < 2 ^ 64) :
    ((BitPtr.incrIter h (elemBits h)
        (BitPtr.new_unchecked h addr head bits)).raw_parts h
      = (addr + 2 ^ h, head, bits))
    ∧ (∀ q : BitPtr, q.lenWord < 2 ^ 64 → (q.incr_head h).len = q.len)
    ∧ ((BitPtr.new_unchecked h addr head bits).incr_head h).pointer h
        = addr + (if head + 1 = elemBits h then 2 ^ h else 0)
    ∧ ((BitPtr.new_unchecked h addr head bits).incr_head h).head h
        = (head + 1) % elemBits h := by
  obtain ⟨hh, hA, hnz, hal, hH, hb, -⟩ := hv
  have hw : 0 < elemBits h := elemBits_pos h
  have hdec := new_unchecked_arith hh hA hal hH hb
  have hal2 : (addr + 2 ^ h) % 2 ^ h = 0 := by
    rw [Nat.add_mod_right]; exact hal
  refine ⟨?_, fun q hq => incr_head_preserves_len q hq, ?_, ?_⟩
  · rw [hdec, incrIter_arith hh hb (elemBits h) addr head hal hA hH (le_refl _)
      (fun _ => hroom)]
    have e1 : (head + elemBits h) / elemBits h = 1 := by
      rw [Nat.add_div_right _ hw, Nat.div_eq_of_lt hH]
    have e2 : (head + elemBits h) % elemBits h = head := by
      rw [Nat.add_mod_right, Nat.mod_eq_of_lt hH]
    rw [e1, e2, Nat.one_mul]
    have hr := raw_parts_arith hh hroom hal2 hH hb
    rw [new_unchecked_arith hh hroom hal2 hH hb] at hr
    exact hr
  · rw [hdec, incr_head_arith hh hal hA hH hb (fun _ => hroom)]
    have hhd : (head + 1) % elemBits h < elemBits h := Nat.mod_lt _ hw
    by_cases hc : head + 1 = elemBits h
    · have e1 : (head + 1) / elemBits h = 1 := by rw [hc, Nat.div_self hw]
      have e2m : (head + 1) % elemBits h = 0 := by rw [hc, Nat.mod_self]
      rw [if_pos hc, e1, e2m, Nat.one_mul]
      exact pointer_arith hh hroom hal2 hw
    · have hlt : head + 1 < elemBits h := by omega
      rw [if_neg hc, Nat.div_eq_of_lt hlt, Nat.zero_mul, Nat.add_zero]
      have hp := pointer_arith (L := 8 * bits + (head + 1) % elemBits h % 8)
        hh hA hal hhd
      simpa using hp
  · rw [hdec, incr_head_arith hh hal hA hH hb (fun _ => hroom)]
    have hhd : (head + 1) % elemBits h < elemBits h := Nat.mod_lt _ hw
    by_cases hc : head + 1 = elemBits h
    · have e1 : (head + 1) / elemBits h = 1 := by rw [hc, Nat.div_self hw]
      have e2m : (head + 1) % elemBits h = 0 := by rw [hc, Nat.mod_self]
      rw [e1, e2m, Nat.one_mul]
      exact head_arith hh hroom hal2 hw
    · have hlt : head + 1 < elemBits h := by omega
      rw [Nat.div_eq_of_lt hlt, Nat.zero_mul, Nat.add_zero]
      exact head_arith hh hA hal hhd

/-- Witness for the amended C5 at the `u16` pointer `(4096, 13, 5)`. -/
theorem incr_head_rollover_witness :
    ((BitPtr.incrIter 1 (elemBits 1)
        (BitPtr.new_unchecked 1 4096 13 5)).raw_parts 1
      = (4096 + 2 ^ 1, 13, 5))
    ∧ (∀ q : BitPtr, q.lenWord < 2 ^ 64 → (q.incr_head 1).len = q.len)
    ∧ ((BitPtr.new_unchecked 1 4096 13 5).incr_head 1).pointer 1
        = 4096 + (if 13 + 1 = elemBits 1 then 2 ^ 1 else 0)
    ∧ ((BitPtr.new_unchecked 1 4096 13 5).incr_head 1).head 1
        = (13 + 1) % elemBits 1 :=
  incr_head_rollover (by decide) (by decide)

/-! ## Region splitting: interval and realignment lemmas -/

theorem ival_append (s a t b : Nat) (h : t = s + a) :
    ival s a ++ ival t b = ival s (a + b) := by
  subst h
  unfold ival
  rw [List.range_add, List.map_append, List.map_map]
  congr 1
  have he : ((fun i => s + i) ∘ (fun i => a + i)) = fun i => s + a + i := by
    funext i
    simp [Function.comp]
    omega
  rw [he]

/-- Two intervals with equal starts and equal lengths are equal. -/
theorem ival_congr {s1 s2 n1 n2 : Nat} (hs : s1 = s2) (hn : n1 = n2) :
    ival s1 n1 = ival s2 n2 := by
  rw [hs, hn]

/-- Decoding the bit contents of a packed valid pointer as an interval. -/
theorem contents_arith {h a hd b : Nat} (hh : h ≤ 3) (hA : a < 2 ^ 64)
    (hal : a % 2 ^ h = 0) (hH : hd < elemBits h) (hb : b ≤ REGION_MAX_BITS) :
    (BitPtr.new_unchecked h a hd b).contents h = ival (8 * a + hd) b := by
  unfold BitPtr.contents ival
  rw [new_unchecked_arith hh hA hal hH hb]
  simp only [len_arith, head_arith hh hA hal hH, pointer_arith hh hA hal hH]

theorem len_EMPTY (h0 : Nat) : (BitPtr.EMPTY h0).len = 0 := by
  simp [BitPtr.EMPTY, BitPtr.len]

theorem contents_EMPTY (h0 h1 : Nat) : (BitPtr.EMPTY h0).contents h1 = [] := by
  unfold BitPtr.contents
  rw [len_EMPTY]
  rfl

/-- Decoding the length of a packed valid pointer. -/
theorem len_new_unchecked {h a hd b : Nat} (hh : h ≤ 3) (hA : a < 2 ^ 64)
    (hal : a % 2 ^ h = 0) (hH : hd < elemBits h) (hb : b ≤ REGION_MAX_BITS) :
    (BitPtr.new_unchecked h a hd b).len = b := by
  rw [new_unchecked_arith hh hA hal hH hb]
  exact len_arith

/-- Structure of a rounded-up quotient: it is positive, and the dividend
splits into full widths plus the remapped tail. -/
theorem ceil_facts {w t : Nat} (hw : 0 < w) (ht : 0 < t) :
    1 ≤ (t + (w - 1)) / w
    ∧ t = ((t + (w - 1)) / w - 1) * w + (if t % w = 0 then w else t % w)
    ∧ 0 < (if t % w = 0 then w else t % w)
    ∧ (if t % w = 0 then w else t % w) ≤ w := by
  obtain ⟨q, r, hr, rfl⟩ : ∃ q r, r < w ∧ t = w * q + r :=
    ⟨t / w, t % w, Nat.mod_lt _ hw, (Nat.div_add_mod t w).symm⟩
  have hmod : (w * q + r) % w = r := by
    rw [Nat.mul_add_mod, Nat.mod_eq_of_lt hr]
  have hdiv : (w * q + r) / w = q := by
    rw [Nat.mul_add_div hw, Nat.div_eq_of_lt hr, Nat.add_zero]
  have hE := ceil_div_eq hw (w * q + r)
  rw [← hE, hdiv, hmod]
  have hcm : w * q = q * w := Nat.mul_comm w q
  by_cases hz : r = 0
  · subst hz
    rw [if_neg (by omega), if_pos rfl]
    have hq : 1 ≤ q := by
      rcases Nat.eq_zero_or_pos q with h0 | h
      · subst h0
        omega
      · exact h
    have hBw : 1 * w ≤ q * w := Nat.mul_le_mul_right w hq
    rw [Nat.one_mul] at hBw
    refine ⟨by omega, ?_, by omega, by omega⟩
    have he : (q + 0 - 1) * w = q * w - w := by
      rw [Nat.add_zero, Nat.sub_mul, Nat.one_mul]
    rw [he]
    omega
  · rw [if_pos (by omega), if_neg hz]
    refine ⟨by omega, ?_, by omega, by omega⟩
    have he : (q + 1 - 1) * w = q * w := by
      rw [Nat.add_sub_cancel]
    rw [he]
    omega

/-- Full specification of the modelled native realignment: the three pieces
tile the body contiguously from its base address, partition its bytes, and a
non-empty center starts on a `U` boundary. -/
theorem sliceAlignTo_spec {hT hU : Nat} (a n : Nat) (hal : a % 2 ^ hT = 0) :
    ∃ lL cL rL, sliceAlignTo (2 ^ hT) (2 ^ hU) a n
        = ((a, lL), (a + lL * 2 ^ hT, cL), (a + lL * 2 ^ hT + cL * 2 ^ hU, rL))
      ∧ lL * 2 ^ hT + cL * 2 ^ hU + rL * 2 ^ hT = n * 2 ^ hT
      ∧ (cL ≠ 0 → (a + lL * 2 ^ hT) % 2 ^ hU = 0) := by
  have hsT : 0 < 2 ^ hT := Nat.pos_pow_of_pos _ (by omega)
  have hsU : 0 < 2 ^ hU := Nat.pos_pow_of_pos _ (by omega)
  unfold sliceAlignTo
  by_cases hb : n < (2 ^ hU - a % 2 ^ hU) % 2 ^ hU / 2 ^ hT
  · rw [if_pos hb]
    refine ⟨n, 0, 0, by simp, by ring, fun hc => absurd rfl hc⟩
  · rw [if_neg hb]
    refine ⟨(2 ^ hU - a % 2 ^ hU) % 2 ^ hU / 2 ^ hT,
      (n - (2 ^ hU - a % 2 ^ hU) % 2 ^ hU / 2 ^ hT) * 2 ^ hT / 2 ^ hU,
      (n - (2 ^ hU - a % 2 ^ hU) % 2 ^ hU / 2 ^ hT)
        - (n - (2 ^ hU - a % 2 ^ hU) % 2 ^ hU / 2 ^ hT) * 2 ^ hT / 2 ^ hU
            * 2 ^ hU / 2 ^ hT,
      rfl, ?_, ?_⟩
    · -- the byte partition
      set off := (2 ^ hU - a % 2 ^ hU) % 2 ^ hU / 2 ^ hT with hoff
      set m := n - off with hm
      have hofn : off ≤ n := by omega
      rcases le_total hT hU with hcase | hcase
      · obtain ⟨d, hd⟩ : ∃ d, 2 ^ hU = 2 ^ hT * d :=
          ⟨2 ^ (hU - hT), by rw [← Nat.pow_add]; congr 1; omega⟩
        have e1 : m * 2 ^ hT / 2 ^ hU = m / d := by
          rw [hd, Nat.mul_comm m (2 ^ hT), Nat.mul_div_mul_left m d hsT]
        have e2 : m / d * 2 ^ hU / 2 ^ hT = m / d * d := by
          rw [hd]
          have : m / d * (2 ^ hT * d) = 2 ^ hT * (m / d * d) := by ring
          rw [this, Nat.mul_div_cancel_left _ hsT]
        rw [e1, e2, hd]
        have k1 : m / d * d ≤ m := Nat.div_mul_le_self m d
        have e3 : m / d * (2 ^ hT * d) = (m / d * d) * 2 ^ hT := by ring
        rw [e3, ← Nat.add_mul, ← Nat.add_mul]
        congr 1
        omega
      · obtain ⟨d, hd⟩ : ∃ d, 2 ^ hT = 2 ^ hU * d :=
          ⟨2 ^ (hT - hU), by rw [← Nat.pow_add]; congr 1; omega⟩
        have e1 : m * 2 ^ hT / 2 ^ hU = m * d := by
          rw [hd]
          have : m * (2 ^ hU * d) = 2 ^ hU * (m * d) := by ring
          rw [this, Nat.mul_div_cancel_left _ hsU]
        have e2 : m * d * 2 ^ hU / 2 ^ hT = m := by
          rw [hd]
          have : m * d * 2 ^ hU = (2 ^ hU * d) * m := by ring
          rw [this, Nat.mul_div_cancel_left _ (by rw [← hd]; exact hsT)]
        rw [e1, e2, hd, Nat.sub_self, Nat.zero_mul, Nat.add_zero]
        have e3 : m * d * 2 ^ hU = m * (2 ^ hU * d) := by ring
        rw [e3, ← Nat.add_mul]
        congr 1
        omega
    · -- alignment of a non-empty center
      intro hc
      set off := (2 ^ hU - a % 2 ^ hU) % 2 ^ hU / 2 ^ hT with hoff
      rcases le_total hU hT with hcase | hcase
      · have hsUa : a % 2 ^ hU = 0 := by
          apply Nat.mod_eq_zero_of_dvd
          exact dvd_trans (Nat.pow_dvd_pow 2 hcase) (Nat.dvd_of_mod_eq_zero hal)
        have hoz : off = 0 := by
          rw [hoff, hsUa, Nat.sub_zero, Nat.mod_self, Nat.zero_div]
        rw [hoz, Nat.zero_mul, Nat.add_zero]
        exact hsUa
      · obtain ⟨d, hd⟩ : ∃ d, 2 ^ hU = 2 ^ hT * d :=
          ⟨2 ^ (hU - hT), by rw [← Nat.pow_add]; congr 1; omega⟩
        have hdpos : 0 < d := by
          rcases Nat.eq_zero_or_pos d with h0 | h
          · rw [h0, Nat.mul_zero] at hd
            omega
          · exact h
        obtain ⟨a1, ha1⟩ := Nat.dvd_of_mod_eq_zero hal
        have hmm : a % 2 ^ hU = 2 ^ hT * (a1 % d) := by
          rw [ha1, hd, Nat.mul_mod_mul_left]
        have hoffv : off = (d - a1 % d) % d := by
          rw [hoff, hmm, hd]
          have e : 2 ^ hT * d - 2 ^ hT * (a1 % d) = 2 ^ hT * (d - a1 % d) :=
            (Nat.mul_sub _ _ _).symm
          rw [e, Nat.mul_mod_mul_left, Nat.mul_div_cancel_left _ hsT]
        rw [ha1, hoffv, hd]
        have e : 2 ^ hT * a1 + (d - a1 % d) % d * 2 ^ hT
            = 2 ^ hT * (a1 + (d - a1 % d) % d) := by ring
        rw [e, Nat.mul_mod_mul_left]
        have hz : (a1 + (d - a1 % d) % d) % d = 0 := by
          have h2 := Nat.div_add_mod a1 d
          have h3 : a1 % d < d := Nat.mod_lt _ hdpos
          by_cases hr : a1 % d = 0
          · rw [hr, Nat.sub_zero, Nat.mod_self, Nat.add_zero]
            exact hr
          · have e1 : (d - a1 % d) % d = d - a1 % d := Nat.mod_eq_of_lt (by omega)
            rw [e1]
            have e2 : a1 + (d - a1 % d) = d * (a1 / d) + d := by omega
            rw [e2, Nat.add_mod, Nat.mul_mod_right, Nat.mod_self]
            simp
        rw [hz, Nat.mul_zero]

/-- An `Enclave` source is passed through `align_to` unchanged, with empty
center and right pointers. -/
theorem align_to_of_enclave {hT hU : Nat} {p : BitPtr} {hd a tl : Nat}
    (hdom : domain hT p = Domain.enclave hd a tl) :
    BitPtr.align_to hT hU p = (p, BitPtr.EMPTY hU, BitPtr.EMPTY hT) := by
  unfold BitPtr.align_to
  rw [hdom]

/-- Assembling the three `align_to` pieces: once each piece's contents is the
expected interval, the partition conclusions follow. -/
theorem pieces_assemble {hT hU : Nat} {p L C R : BitPtr}
    {S0 lam lL cL rL tau bits : Nat}
    (heq : BitPtr.align_to hT hU p = (L, C, R))
    (hcont : p.contents hT = ival S0 bits)
    (hplen : p.len = bits)
    (hLc : L.contents hT = ival S0 (lam + lL * elemBits hT))
    (hLl : L.len = lam + lL * elemBits hT)
    (hCc : C.contents hU
        = ival (S0 + (lam + lL * elemBits hT)) (cL * elemBits hU))
    (hCl : C.len = cL * elemBits hU)
    (hRc : R.contents hT
        = ival (S0 + ((lam + lL * elemBits hT) + cL * elemBits hU))
            (tau + rL * elemBits hT))
    (hRl : R.len = tau + rL * elemBits hT)
    (htot : lam + lL * elemBits hT + cL * elemBits hU
        + (tau + rL * elemBits hT) = bits)
    (hCp : cL ≠ 0 → C.pointer hU % 2 ^ hU = 0) :
    ((BitPtr.align_to hT hU p).1.contents hT
        ++ (BitPtr.align_to hT hU p).2.1.contents hU
        ++ (BitPtr.align_to hT hU p).2.2.contents hT
      = p.contents hT)
    ∧ ((BitPtr.align_to hT hU p).1.len + (BitPtr.align_to hT hU p).2.1.len
        + (BitPtr.align_to hT hU p).2.2.len = p.len)
    ∧ ((BitPtr.align_to hT hU p).2.1.len ≠ 0 →
        (∃ k, 0 < k ∧ (BitPtr.align_to hT hU p).2.1.len = k * elemBits hU)
        ∧ (BitPtr.align_to hT hU p).2.1.pointer hU % 2 ^ hU = 0
        ∧ ∀ x, x ∈ (BitPtr.align_to hT hU p).2.1.contents hU →
            x ∈ p.contents hT) := by
  have hcc : L.contents hT ++ C.contents hU ++ R.contents hT
      = p.contents hT := by
    rw [hLc, hCc, hRc, List.append_assoc,
      ival_append (S0 + (lam + lL * elemBits hT)) (cL * elemBits hU)
        (S0 + (lam + lL * elemBits hT + cL * elemBits hU))
        (tau + rL * elemBits hT) (by omega),
      ival_append S0 (lam + lL * elemBits hT) (S0 + (lam + lL * elemBits hT))
        (cL * elemBits hU + (tau + rL * elemBits hT)) rfl,
      hcont]
    congr 1
    omega
  refine ⟨?_, ?_, ?_⟩
  · rw [heq]
    simp only
    exact hcc
  · rw [heq, hplen]
    simp only
    rw [hLl, hCl, hRl]
    omega
  · rw [heq]
    simp only
    intro hne
    rw [hCl] at hne
    have hcne : cL ≠ 0 := by
      intro h0
      apply hne
      rw [h0, Nat.zero_mul]
    refine ⟨⟨cL, Nat.pos_of_ne_zero hcne, hCl⟩, hCp hcne, ?_⟩
    intro x hx
    rw [← hcc, List.mem_append]
    left
    rw [List.mem_append]
    right
    exact hx

set_option maxHeartbeats 1000000

/-- C3: the `align_to` partition law (`ptr.rs` lines 831-913). On every
packed pointer built from a paragraph-3-valid triple, the bit contents of
the returned (left, center, right) pointers, concatenated in order,
reproduce exactly the bit contents of the source region, so in particular
the three lengths sum to the source length; a non-empty center holds a
positive whole number of `U`-width elements, starts at a `U`-aligned
address, and consists only of source bits; and when the source's domain is
an enclave the result is the source pointer unchanged beside an empty
center and an empty right. -/
theorem align_to_partition {hT hU addr head bits : Nat} (hu : hU ≤ 3)
    (hv : Valid hT addr head bits) :
    ((BitPtr.align_to hT hU (BitPtr.new_unchecked hT addr head bits)).1.contents hT
        ++ (BitPtr.align_to hT hU (BitPtr.new_unchecked hT addr head bits)).2.1.contents hU
        ++ (BitPtr.align_to hT hU (BitPtr.new_unchecked hT addr head bits)).2.2.contents hT
      = (BitPtr.new_unchecked hT addr head bits).contents hT)
    ∧ ((BitPtr.align_to hT hU (BitPtr.new_unchecked hT addr head bits)).1.len
        + (BitPtr.align_to hT hU (BitPtr.new_unchecked hT addr head bits)).2.1.len
        + (BitPtr.align_to hT hU (BitPtr.new_unchecked hT addr head bits)).2.2.len
      = (BitPtr.new_unchecked hT addr head bits).len)
    ∧ ((BitPtr.align_to hT hU (BitPtr.new_unchecked hT addr head bits)).2.1.len ≠ 0 →
        (∃ k, 0 < k ∧
          (BitPtr.align_to hT hU (BitPtr.new_unchecked hT addr head bits)).2.1.len
            = k * elemBits hU)
        ∧ (BitPtr.align_to hT hU (BitPtr.new_unchecked hT addr head bits)).2.1.pointer hU
            % 2 ^ hU = 0
        ∧ ∀ x, x ∈ (BitPtr.align_to hT hU
              (BitPtr.new_unchecked hT addr head bits)).2.1.contents hU →
            x ∈ (BitPtr.new_unchecked hT addr head bits).contents hT)
    ∧ (∀ hd a tl,
        domain hT (BitPtr.new_unchecked hT addr head bits) = Domain.enclave hd a tl →
        BitPtr.align_to hT hU (BitPtr.new_unchecked hT addr head bits)
          = (BitPtr.new_unchecked hT addr head bits, BitPtr.EMPTY hU, BitPtr.EMPTY hT)) := by
  obtain ⟨hh, hA, hnz, hal, hH, hb, hwrap⟩ := hv
  have hw : 0 < elemBits hT := elemBits_pos hT
  have hwU : 0 < elemBits hU := elemBits_pos hU
  have hsT : 0 < 2 ^ hT := Nat.pos_pow_of_pos _ (by omega)
  have hsU : 0 < 2 ^ hU := Nat.pos_pow_of_pos _ (by omega)
  have hdec := new_unchecked_arith hh hA hal hH hb
  have hdE := elements_arith hh hA hal hH hb
  have hdT := tail_arith hh hA hal hH hb
  have hcont := contents_arith hh hA hal hH hb
  have hplen := len_new_unchecked hh hA hal hH hb
  have hdp : (BitPtr.new_unchecked hT addr head bits).pointer hT = addr := by
    rw [hdec]
    exact pointer_arith hh hA hal hH
  have hdhd : (BitPtr.new_unchecked hT addr head bits).head hT = head := by
    rw [hdec]
    exact head_arith hh hA hal hH
  have hdomeval : domain hT (BitPtr.new_unchecked hT addr head bits)
      = (if (head + bits + (elemBits hT - 1)) / elemBits hT = 0 then
          Domain.region none (addr, 0) none
        else if head = 0 ∧ (if head = 0 ∧ bits = 0 then 0
            else if (head + bits) % elemBits hT = 0 then elemBits hT
            else (head + bits) % elemBits hT) = elemBits hT then
          Domain.region none (addr, (head + bits + (elemBits hT - 1)) / elemBits hT) none
        else if (head + bits + (elemBits hT - 1)) / elemBits hT = 1 then
          Domain.enclave head addr (if head = 0 ∧ bits = 0 then 0
            else if (head + bits) % elemBits hT = 0 then elemBits hT
            else (head + bits) % elemBits hT)
        else if (if head = 0 ∧ bits = 0 then 0
            else if (head + bits) % elemBits hT = 0 then elemBits hT
            else (head + bits) % elemBits hT) = elemBits hT then
          Domain.region (some (head, addr)) (addr + 2 ^ hT,
            (head + bits + (elemBits hT - 1)) / elemBits hT - 1) none
        else if head = 0 then
          Domain.region none (addr, (head + bits + (elemBits hT - 1)) / elemBits hT - 1)
            (some (addr + ((head + bits + (elemBits hT - 1)) / elemBits hT - 1) * 2 ^ hT,
              if head = 0 ∧ bits = 0 then 0
              else if (head + bits) % elemBits hT = 0 then elemBits hT
              else (head + bits) % elemBits hT))
        else
          Domain.region (some (head, addr)) (addr + 2 ^ hT,
            (head + bits + (elemBits hT - 1)) / elemBits hT - 2)
            (some (addr + ((head + bits + (elemBits hT - 1)) / elemBits hT - 1) * 2 ^ hT,
              if head = 0 ∧ bits = 0 then 0
              else if (head + bits) % elemBits hT = 0 then elemBits hT
              else (head + bits) % elemBits hT))) := by
    unfold domain
    simp only [hdhd, hdE, hdT, hdp, elemBytes]
  by_cases hz : head = 0 ∧ bits = 0
  · -- the empty region
    obtain ⟨hh0, hb0⟩ := hz
    subst hh0
    subst hb0
    have hE0 : (0 + 0 + (elemBits hT - 1)) / elemBits hT = 0 :=
      Nat.div_eq_of_lt (by omega)
    have hdom : domain hT (BitPtr.new_unchecked hT addr 0 0)
        = Domain.region none (addr, 0) none := by
      rw [hdomeval, if_pos hE0]
    obtain ⟨lL, cL, rL, hsplit, hsum, halignC⟩ := @sliceAlignTo_spec hT hU addr 0 hal
    have hlz : lL = 0 := by
      have h1 : lL * 2 ^ hT = 0 := by omega
      rcases Nat.mul_eq_zero.mp h1 with h | h
      exacts [h, absurd h (by omega)]
    have hcz : cL = 0 := by
      have h1 : cL * 2 ^ hU = 0 := by omega
      rcases Nat.mul_eq_zero.mp h1 with h | h
      exacts [h, absurd h (by omega)]
    have hrz : rL = 0 := by
      have h1 : rL * 2 ^ hT = 0 := by omega
      rcases Nat.mul_eq_zero.mp h1 with h | h
      exacts [h, absurd h (by omega)]
    subst hlz
    subst hcz
    subst hrz
    have hsquash : sliceAlignTo (elemBytes hT) (elemBytes hU) addr 0
        = ((addr, 0), (addr + 0 * 2 ^ hT, 0), (addr + 0 * 2 ^ hT + 0 * 2 ^ hU, 0)) := by
      unfold elemBytes
      exact hsplit
    have heq : BitPtr.align_to hT hU (BitPtr.new_unchecked hT addr 0 0)
        = (BitPtr.EMPTY hT, BitPtr.EMPTY hU, BitPtr.EMPTY hT) := by
      unfold BitPtr.align_to
      rw [hdom]
      simp [hsquash]
    refine ⟨?_, ?_, ?_, fun hd a tl hencl => align_to_of_enclave hencl⟩
    · rw [heq, hcont]
      simp [contents_EMPTY, ival]
    · rw [heq, hplen]
      simp [len_EMPTY]
    · rw [heq]
      simp only
      intro hne
      rw [len_EMPTY] at hne
      exact absurd rfl hne
  · -- non-empty region
    have ht : 0 < head + bits := by omega
    obtain ⟨hE1, hident, hTLpos, hTLle⟩ := ceil_facts hw ht
    have hEnz : ¬ (head + bits + (elemBits hT - 1)) / elemBits hT = 0 := by omega
    by_cases hsp : head = 0 ∧ (if head = 0 ∧ bits = 0 then 0
        else if (head + bits) % elemBits hT = 0 then elemBits hT
        else (head + bits) % elemBits hT) = elemBits hT
    · -- spanning
      obtain ⟨hh0, hTw⟩ := hsp
      subst hh0
      have hbnz : ¬ bits = 0 := by omega
      have hTw2 : (if (0 + bits) % elemBits hT = 0 then elemBits hT
          else (0 + bits) % elemBits hT) = elemBits hT := by
        rw [if_neg (by omega)] at hTw
        exact hTw
      have hmod0 : (0 + bits) % elemBits hT = 0 := by
        by_cases hm : (0 + bits) % elemBits hT = 0
        · exact hm
        · rw [if_neg hm] at hTw2
          have := Nat.mod_lt (0 + bits) hw
          omega
      have hsub : ((0 + bits + (elemBits hT - 1)) / elemBits hT - 1) * elemBits hT
          = (0 + bits + (elemBits hT - 1)) / elemBits hT * elemBits hT
            - elemBits hT := by
        rw [Nat.sub_mul, Nat.one_mul]
      have hge : 1 * elemBits hT
          ≤ (0 + bits + (elemBits hT - 1)) / elemBits hT * elemBits hT :=
        Nat.mul_le_mul_right _ hE1
      rw [Nat.one_mul] at hge
      rw [if_pos hmod0] at hident
      rw [hsub] at hident
      have hbitsEw : bits
          = (0 + bits + (elemBits hT - 1)) / elemBits hT * elemBits hT := by
        omega
      have hdom : domain hT (BitPtr.new_unchecked hT addr 0 bits)
          = Domain.region none
              (addr, (0 + bits + (elemBits hT - 1)) / elemBits hT) none := by
        rw [hdomeval, if_neg hEnz, if_pos ⟨rfl, hTw⟩]
      have hspan : spanElts hT 0 bits
          = (0 + bits + (elemBits hT - 1)) / elemBits hT := by
        unfold spanElts
        rw [if_neg hbnz]
      have hwrap2 : addr
          + (0 + bits + (elemBits hT - 1)) / elemBits hT * 2 ^ hT < 2 ^ 64 := by
        rw [← hspan]
        unfold elemBytes at hwrap
        exact hwrap
      obtain ⟨lL, cL, rL, hsplit, hsum, halignC⟩ := @sliceAlignTo_spec hT hU addr
        ((0 + bits + (elemBits hT - 1)) / elemBits hT) hal
      have hsquash : sliceAlignTo (elemBytes hT) (elemBytes hU) addr
          ((0 + bits + (elemBits hT - 1)) / elemBits hT)
          = ((addr, lL), (addr + lL * 2 ^ hT, cL),
             (addr + lL * 2 ^ hT + cL * 2 ^ hU, rL)) := by
        unfold elemBytes
        exact hsplit
      have heq : BitPtr.align_to hT hU (BitPtr.new_unchecked hT addr 0 bits)
          = ((if lL * elemBits hT = 0 then BitPtr.EMPTY hT
              else BitPtr.new_unchecked hT addr 0 (lL * elemBits hT)),
             (if cL * elemBits hU = 0 then BitPtr.EMPTY hU
              else BitPtr.new_unchecked hU (addr + lL * 2 ^ hT) 0
                (cL * elemBits hU)),
             (if rL ≠ 0 then
                BitPtr.new_unchecked hT (addr + lL * 2 ^ hT + cL * 2 ^ hU) 0
                  (rL * elemBits hT)
              else BitPtr.EMPTY hT)) := by
        unfold BitPtr.align_to
        rw [hdom]
        simp only [hsquash]
      have hlw8 : lL * elemBits hT = 8 * (lL * 2 ^ hT) := by
        unfold elemBits
        ring
      have hcw8 : cL * elemBits hU = 8 * (cL * 2 ^ hU) := by
        unfold elemBits
        ring
      have hrw8 : rL * elemBits hT = 8 * (rL * 2 ^ hT) := by
        unfold elemBits
        ring
      have hEw8 : (0 + bits + (elemBits hT - 1)) / elemBits hT * elemBits hT
          = 8 * ((0 + bits + (elemBits hT - 1)) / elemBits hT * 2 ^ hT) := by
        unfold elemBits
        ring
      have hLc : (if lL * elemBits hT = 0 then BitPtr.EMPTY hT
          else BitPtr.new_unchecked hT addr 0 (lL * elemBits hT)).contents hT
          = ival (8 * addr + 0) (0 + lL * elemBits hT) := by
        by_cases hlz : lL * elemBits hT = 0
        · rw [if_pos hlz, contents_EMPTY]
          simp [ival, hlz]
        · rw [if_neg hlz, contents_arith hh hA hal hw (by omega)]
          exact ival_congr rfl (by omega)
      have hLl : (if lL * elemBits hT = 0 then BitPtr.EMPTY hT
          else BitPtr.new_unchecked hT addr 0 (lL * elemBits hT)).len
          = 0 + lL * elemBits hT := by
        by_cases hlz : lL * elemBits hT = 0
        · rw [if_pos hlz, len_EMPTY]
          omega
        · rw [if_neg hlz, len_new_unchecked hh hA hal hw (by omega)]
          omega
      have hCc : (if cL * elemBits hU = 0 then BitPtr.EMPTY hU
          else BitPtr.new_unchecked hU (addr + lL * 2 ^ hT) 0
            (cL * elemBits hU)).contents hU
          = ival (8 * addr + 0 + (0 + lL * elemBits hT)) (cL * elemBits hU) := by
        by_cases hcz0 : cL * elemBits hU = 0
        · rw [if_pos hcz0, contents_EMPTY]
          simp [ival, hcz0]
        · have hcnz : cL ≠ 0 := by
            intro h0
            rw [h0, Nat.zero_mul] at hcz0
            exact hcz0 rfl
          have hCA : addr + lL * 2 ^ hT < 2 ^ 64 := by omega
          rw [if_neg hcz0, contents_arith hu hCA (halignC hcnz) hwU (by omega)]
          exact ival_congr (by omega) rfl
      have hCl : (if cL * elemBits hU = 0 then BitPtr.EMPTY hU
          else BitPtr.new_unchecked hU (addr + lL * 2 ^ hT) 0
            (cL * elemBits hU)).len = cL * elemBits hU := by
        by_cases hcz0 : cL * elemBits hU = 0
        · rw [if_pos hcz0, len_EMPTY]
          omega
        · have hcnz : cL ≠ 0 := by
            intro h0
            rw [h0, Nat.zero_mul] at hcz0
            exact hcz0 rfl
          have hCA : addr + lL * 2 ^ hT < 2 ^ 64 := by omega
          rw [if_neg hcz0, len_new_unchecked hu hCA (halignC hcnz) hwU (by omega)]
      have hRc : (if rL ≠ 0 then
            BitPtr.new_unchecked hT (addr + lL * 2 ^ hT + cL * 2 ^ hU) 0
              (rL * elemBits hT)
          else BitPtr.EMPTY hT).contents hT
          = ival (8 * addr + 0 + (0 + lL * elemBits hT + cL * elemBits hU))
              (0 + rL * elemBits hT) := by
        by_cases hrz : rL = 0
        · rw [if_neg (by omega), contents_EMPTY]
          simp [ival, hrz]
        · have h1T : 1 * 2 ^ hT ≤ rL * 2 ^ hT :=
            Nat.mul_le_mul_right _ (Nat.pos_of_ne_zero hrz)
          rw [Nat.one_mul] at h1T
          have hRA : addr + lL * 2 ^ hT + cL * 2 ^ hU < 2 ^ 64 := by omega
          have hcd : cL * 2 ^ hU
              = ((0 + bits + (elemBits hT - 1)) / elemBits hT - lL - rL)
                * 2 ^ hT := by
            rw [Nat.sub_mul, Nat.sub_mul]
            omega
          have hRal : (addr + lL * 2 ^ hT + cL * 2 ^ hU) % 2 ^ hT = 0 := by
            rw [hcd, Nat.add_mul_mod_self_right, Nat.add_mul_mod_self_right]
            exact hal
          rw [if_pos hrz, contents_arith hh hRA hRal hw (by omega)]
          exact ival_congr (by omega) (by omega)
      have hRl : (if rL ≠ 0 then
            BitPtr.new_unchecked hT (addr + lL * 2 ^ hT + cL * 2 ^ hU) 0
              (rL * elemBits hT)
          else BitPtr.EMPTY hT).len = 0 + rL * elemBits hT := by
        by_cases hrz : rL = 0
        · rw [if_neg (by omega), len_EMPTY, hrz, Nat.zero_mul]
        · have h1T : 1 * 2 ^ hT ≤ rL * 2 ^ hT :=
            Nat.mul_le_mul_right _ (Nat.pos_of_ne_zero hrz)
          rw [Nat.one_mul] at h1T
          have hRA : addr + lL * 2 ^ hT + cL * 2 ^ hU < 2 ^ 64 := by omega
          have hcd : cL * 2 ^ hU
              = ((0 + bits + (elemBits hT - 1)) / elemBits hT - lL - rL)
                * 2 ^ hT := by
            rw [Nat.sub_mul, Nat.sub_mul]
            omega
          have hRal : (addr + lL * 2 ^ hT + cL * 2 ^ hU) % 2 ^ hT = 0 := by
            rw [hcd, Nat.add_mul_mod_self_right, Nat.add_mul_mod_self_right]
            exact hal
          rw [if_pos hrz, len_new_unchecked hh hRA hRal hw (by omega)]
          omega
      have htot : 0 + lL * elemBits hT + cL * elemBits hU
          + (0 + rL * elemBits hT) = bits := by
        omega
      have hCp : cL ≠ 0 →
          (if cL * elemBits hU = 0 then BitPtr.EMPTY hU
           else BitPtr.new_unchecked hU (addr + lL * 2 ^ hT) 0
             (cL * elemBits hU)).pointer hU % 2 ^ hU = 0 := by
        intro hcn
        have hcz0 : ¬ cL * elemBits hU = 0 := by
          intro h0
          rcases Nat.mul_eq_zero.mp h0 with h | h
          · exact hcn h
          · omega
        have hCA : addr + lL * 2 ^ hT < 2 ^ 64 := by omega
        rw [if_neg hcz0,
          new_unchecked_arith hu hCA (halignC hcn) hwU (by omega),
          pointer_arith hu hCA (halignC hcn) hwU]
        exact halignC hcn
      obtain ⟨c1, c2, c3⟩ :=
        pieces_assemble heq hcont hplen hLc hLl hCc hCl hRc hRl htot hCp
      exact ⟨c1, c2, c3, fun hd a tl hencl => align_to_of_enclave hencl⟩
    · by_cases hone : (head + bits + (elemBits hT - 1)) / elemBits hT = 1
      · -- enclave
        have hdom : domain hT (BitPtr.new_unchecked hT addr head bits)
            = Domain.enclave head addr (if head = 0 ∧ bits = 0 then 0
                else if (head + bits) % elemBits hT = 0 then elemBits hT
                else (head + bits) % elemBits hT) := by
          rw [hdomeval, if_neg hEnz, if_neg hsp, if_pos hone]
        have heq := @align_to_of_enclave hT hU _ _ _ _ hdom
        refine ⟨?_, ?_, ?_, fun hd a tl hencl => align_to_of_enclave hencl⟩
        · rw [heq]
          simp only
          rw [contents_EMPTY, contents_EMPTY]
          simp
        · rw [heq]
          simp only
          rw [len_EMPTY, len_EMPTY]
          omega
        · rw [heq]
          simp only
          intro hne
          rw [len_EMPTY] at hne
          exact absurd rfl hne
      · by_cases htw : (if head = 0 ∧ bits = 0 then 0
            else if (head + bits) % elemBits hT = 0 then elemBits hT
            else (head + bits) % elemBits hT) = elemBits hT
        · -- head edge only
          have hhnz : ¬ head = 0 := fun h0 => hsp ⟨h0, htw⟩
          have houter : (if head = 0 ∧ bits = 0 then 0
              else if (head + bits) % elemBits hT = 0 then elemBits hT
              else (head + bits) % elemBits hT)
              = (if (head + bits) % elemBits hT = 0 then elemBits hT
                 else (head + bits) % elemBits hT) := by
            rw [if_neg (by omega)]
          have htwI : (if (head + bits) % elemBits hT = 0 then elemBits hT
              else (head + bits) % elemBits hT) = elemBits hT := by
            rw [← houter]
            exact htw
          have hmod0 : (head + bits) % elemBits hT = 0 := by
            by_cases hm : (head + bits) % elemBits hT = 0
            · exact hm
            · rw [if_neg hm] at htwI
              have := Nat.mod_lt (head + bits) hw
              omega
          have hbnz : ¬ bits = 0 := by
            intro h0
            rw [h0, Nat.add_zero, Nat.mod_eq_of_lt hH] at hmod0
            exact hhnz hmod0
          rw [if_pos hmod0] at hident
          have hE2 : 2 ≤ (head + bits + (elemBits hT - 1)) / elemBits hT := by
            omega
          have hdom : domain hT (BitPtr.new_unchecked hT addr head bits)
              = Domain.region (some (head, addr))
                  (addr + 2 ^ hT,
                   (head + bits + (elemBits hT - 1)) / elemBits hT - 1)
                  none := by
            rw [hdomeval, if_neg hEnz, if_neg hsp, if_neg hone, if_pos htw]
          have hspan : spanElts hT head bits
              = (head + bits + (elemBits hT - 1)) / elemBits hT := by
            unfold spanElts
            rw [if_neg hbnz]
          have hwrap2 : addr
              + (head + bits + (elemBits hT - 1)) / elemBits hT * 2 ^ hT
              < 2 ^ 64 := by
            rw [← hspan]
            unfold elemBytes at hwrap
            exact hwrap
          have hEm1T : ((head + bits + (elemBits hT - 1)) / elemBits hT - 1)
              * 2 ^ hT
              = (head + bits + (elemBits hT - 1)) / elemBits hT * 2 ^ hT
                - 2 ^ hT := by
            rw [Nat.sub_mul, Nat.one_mul]
          have hge1T : 1 * 2 ^ hT
              ≤ (head + bits + (elemBits hT - 1)) / elemBits hT * 2 ^ hT :=
            Nat.mul_le_mul_right _ (by omega)
          rw [Nat.one_mul] at hge1T
          have hEm1w : ((head + bits + (elemBits hT - 1)) / elemBits hT - 1)
              * elemBits hT
              = (head + bits + (elemBits hT - 1)) / elemBits hT * elemBits hT
                - elemBits hT := by
            rw [Nat.sub_mul, Nat.one_mul]
          have hge1w : 1 * elemBits hT
              ≤ (head + bits + (elemBits hT - 1)) / elemBits hT
                * elemBits hT :=
            Nat.mul_le_mul_right _ (by omega)
          rw [Nat.one_mul] at hge1w
          have hEw8 : (head + bits + (elemBits hT - 1)) / elemBits hT
              * elemBits hT
              = 8 * ((head + bits + (elemBits hT - 1)) / elemBits hT
                * 2 ^ hT) := by
            unfold elemBits
            ring
          have hEm1w8 : ((head + bits + (elemBits hT - 1)) / elemBits hT - 1)
              * elemBits hT
              = 8 * (((head + bits + (elemBits hT - 1)) / elemBits hT - 1)
                * 2 ^ hT) := by
            unfold elemBits
            ring
          have hw2T : elemBits hT = 8 * 2 ^ hT := rfl
          have hbal : (addr + 2 ^ hT) % 2 ^ hT = 0 := by
            rw [Nat.add_mod_right]
            exact hal
          obtain ⟨lL, cL, rL, hsplit, hsum, halignC⟩ :=
            @sliceAlignTo_spec hT hU (addr + 2 ^ hT)
              ((head + bits + (elemBits hT - 1)) / elemBits hT - 1) hbal
          have hsquash : sliceAlignTo (elemBytes hT) (elemBytes hU)
              (addr + 2 ^ hT)
              ((head + bits + (elemBits hT - 1)) / elemBits hT - 1)
              = ((addr + 2 ^ hT, lL), (addr + 2 ^ hT + lL * 2 ^ hT, cL),
                 (addr + 2 ^ hT + lL * 2 ^ hT + cL * 2 ^ hU, rL)) := by
            unfold elemBytes
            exact hsplit
          have heq : BitPtr.align_to hT hU
              (BitPtr.new_unchecked hT addr head bits)
              = (BitPtr.new_unchecked hT addr head
                   (elemBits hT - head + lL * elemBits hT),
                 (if cL * elemBits hU = 0 then BitPtr.EMPTY hU
                  else BitPtr.new_unchecked hU (addr + 2 ^ hT + lL * 2 ^ hT) 0
                    (cL * elemBits hU)),
                 (if rL ≠ 0 then
                    BitPtr.new_unchecked hT
                      (addr + 2 ^ hT + lL * 2 ^ hT + cL * 2 ^ hU) 0
                      (rL * elemBits hT)
                  else BitPtr.EMPTY hT)) := by
            unfold BitPtr.align_to
            rw [hdom]
            simp only [hsquash]
          have hlw8 : lL * elemBits hT = 8 * (lL * 2 ^ hT) := by
            unfold elemBits
            ring
          have hcw8 : cL * elemBits hU = 8 * (cL * 2 ^ hU) := by
            unfold elemBits
            ring
          have hrw8 : rL * elemBits hT = 8 * (rL * 2 ^ hT) := by
            unfold elemBits
            ring
          have hbndL : elemBits hT - head + lL * elemBits hT
              ≤ REGION_MAX_BITS := by
            omega
          have hLc : (BitPtr.new_unchecked hT addr head
                (elemBits hT - head + lL * elemBits hT)).contents hT
              = ival (8 * addr + head)
                  (elemBits hT - head + lL * elemBits hT) := by
            rw [contents_arith hh hA hal hH hbndL]
          have hLl : (BitPtr.new_unchecked hT addr head
                (elemBits hT - head + lL * elemBits hT)).len
              = elemBits hT - head + lL * elemBits hT :=
            len_new_unchecked hh hA hal hH hbndL
          have hCc : (if cL * elemBits hU = 0 then BitPtr.EMPTY hU
              else BitPtr.new_unchecked hU (addr + 2 ^ hT + lL * 2 ^ hT) 0
                (cL * elemBits hU)).contents hU
              = ival (8 * addr + head
                  + (elemBits hT - head + lL * elemBits hT))
                  (cL * elemBits hU) := by
            by_cases hcz0 : cL * elemBits hU = 0
            · rw [if_pos hcz0, contents_EMPTY]
              simp [ival, hcz0]
            · have hcnz : cL ≠ 0 := by
                intro h0
                rw [h0, Nat.zero_mul] at hcz0
                exact hcz0 rfl
              have hCA : addr + 2 ^ hT + lL * 2 ^ hT < 2 ^ 64 := by omega
              rw [if_neg hcz0,
                contents_arith hu hCA (halignC hcnz) hwU (by omega)]
              exact ival_congr (by omega) rfl
          have hCl : (if cL * elemBits hU = 0 then BitPtr.EMPTY hU
              else BitPtr.new_unchecked hU (addr + 2 ^ hT + lL * 2 ^ hT) 0
                (cL * elemBits hU)).len = cL * elemBits hU := by
            by_cases hcz0 : cL * elemBits hU = 0
            · rw [if_pos hcz0, len_EMPTY]
              omega
            · have hcnz : cL ≠ 0 := by
                intro h0
                rw [h0, Nat.zero_mul] at hcz0
                exact hcz0 rfl
              have hCA : addr + 2 ^ hT + lL * 2 ^ hT < 2 ^ 64 := by omega
              rw [if_neg hcz0,
                len_new_unchecked hu hCA (halignC hcnz) hwU (by omega)]
          have hRc : (if rL ≠ 0 then
                BitPtr.new_unchecked hT
                  (addr + 2 ^ hT + lL * 2 ^ hT + cL * 2 ^ hU) 0
                  (rL * elemBits hT)
              else BitPtr.EMPTY hT).contents hT
              = ival (8 * addr + head
                  + (elemBits hT - head + lL * elemBits hT
                    + cL * elemBits hU))
                  (0 + rL * elemBits hT) := by
            by_cases hrz : rL = 0
            · rw [if_neg (by omega), contents_EMPTY]
              simp [ival, hrz]
            · have h1T : 1 * 2 ^ hT ≤ rL * 2 ^ hT :=
                Nat.mul_le_mul_right _ (Nat.pos_of_ne_zero hrz)
              rw [Nat.one_mul] at h1T
              have hRA : addr + 2 ^ hT + lL * 2 ^ hT + cL * 2 ^ hU
                  < 2 ^ 64 := by omega
              have hcd : cL * 2 ^ hU
                  = ((head + bits + (elemBits hT - 1)) / elemBits hT - 1
                      - lL - rL) * 2 ^ hT := by
                rw [Nat.sub_mul, Nat.sub_mul]
                omega
              have hRal : (addr + 2 ^ hT + lL * 2 ^ hT + cL * 2 ^ hU)
                  % 2 ^ hT = 0 := by
                rw [hcd, Nat.add_mul_mod_self_right,
                  Nat.add_mul_mod_self_right, Nat.add_mod_right]
                exact hal
              rw [if_pos hrz, contents_arith hh hRA hRal hw (by omega)]
              exact ival_congr (by omega) (by omega)
          have hRl : (if rL ≠ 0 then
                BitPtr.new_unchecked hT
                  (addr + 2 ^ hT + lL * 2 ^ hT + cL * 2 ^ hU) 0
                  (rL * elemBits hT)
              else BitPtr.EMPTY hT).len = 0 + rL * elemBits hT := by
            by_cases hrz : rL = 0
            · rw [if_neg (by omega), len_EMPTY, hrz, Nat.zero_mul]
            · have h1T : 1 * 2 ^ hT ≤ rL * 2 ^ hT :=
                Nat.mul_le_mul_right _ (Nat.pos_of_ne_zero hrz)
              rw [Nat.one_mul] at h1T
              have hRA : addr + 2 ^ hT + lL * 2 ^ hT + cL * 2 ^ hU
                  < 2 ^ 64 := by omega
              have hcd : cL * 2 ^ hU
                  = ((head + bits + (elemBits hT - 1)) / elemBits hT - 1
                      - lL - rL) * 2 ^ hT := by
                rw [Nat.sub_mul, Nat.sub_mul]
                omega
              have hRal : (addr + 2 ^ hT + lL * 2 ^ hT + cL * 2 ^ hU)
                  % 2 ^ hT = 0 := by
                rw [hcd, Nat.add_mul_mod_self_right,
                  Nat.add_mul_mod_self_right, Nat.add_mod_right]
                exact hal
              rw [if_pos hrz, len_new_unchecked hh hRA hRal hw (by omega)]
              omega
          have htot : elemBits hT - head + lL * elemBits hT
              + cL * elemBits hU + (0 + rL * elemBits hT) = bits := by
            omega
          have hCp : cL ≠ 0 →
              (if cL * elemBits hU = 0 then BitPtr.EMPTY hU
               else BitPtr.new_unchecked hU (addr + 2 ^ hT + lL * 2 ^ hT) 0
                 (cL * elemBits hU)).pointer hU % 2 ^ hU = 0 := by
            intro hcn
            have hcz0 : ¬ cL * elemBits hU = 0 := by
              intro h0
              rcases Nat.mul_eq_zero.mp h0 with h | h
              · exact hcn h
              · omega
            have hCA : addr + 2 ^ hT + lL * 2 ^ hT < 2 ^ 64 := by omega
            rw [if_neg hcz0,
              new_unchecked_arith hu hCA (halignC hcn) hwU (by omega),
              pointer_arith hu hCA (halignC hcn) hwU]
            exact halignC hcn
          obtain ⟨c1, c2, c3⟩ :=
            pieces_assemble heq hcont hplen hLc hLl hCc hCl hRc hRl htot hCp
          exact ⟨c1, c2, c3, fun hd a tl hencl => align_to_of_enclave hencl⟩
        · by_cases hh0 : head = 0
          · -- tail edge only
            subst hh0
            have hbnz : ¬ bits = 0 := by omega
            have houter : (if (0:Nat) = 0 ∧ bits = 0 then 0
                else if (0 + bits) % elemBits hT = 0 then elemBits hT
                else (0 + bits) % elemBits hT)
                = (if (0 + bits) % elemBits hT = 0 then elemBits hT
                   else (0 + bits) % elemBits hT) := by
              rw [if_neg (by omega)]
            have hdom : domain hT (BitPtr.new_unchecked hT addr 0 bits)
                = Domain.region none
                    (addr, (0 + bits + (elemBits hT - 1)) / elemBits hT - 1)
                    (some (addr
                        + ((0 + bits + (elemBits hT - 1)) / elemBits hT - 1)
                          * 2 ^ hT,
                      if (0 + bits) % elemBits hT = 0 then elemBits hT
                      else (0 + bits) % elemBits hT)) := by
              rw [hdomeval, if_neg hEnz, if_neg hsp, if_neg hone, if_neg htw,
                if_pos rfl, houter]
            rw [houter] at htw
            have hTlt : (if (0 + bits) % elemBits hT = 0 then elemBits hT
                else (0 + bits) % elemBits hT) < elemBits hT := by
              omega
            have hspan : spanElts hT 0 bits
                = (0 + bits + (elemBits hT - 1)) / elemBits hT := by
              unfold spanElts
              rw [if_neg hbnz]
            have hwrap2 : addr
                + (0 + bits + (elemBits hT - 1)) / elemBits hT * 2 ^ hT
                < 2 ^ 64 := by
              rw [← hspan]
              unfold elemBytes at hwrap
              exact hwrap
            have hE2 : 2 ≤ (0 + bits + (elemBits hT - 1)) / elemBits hT := by
              omega
            have hEm1T : ((0 + bits + (elemBits hT - 1)) / elemBits hT - 1)
                * 2 ^ hT
                = (0 + bits + (elemBits hT - 1)) / elemBits hT * 2 ^ hT
                  - 2 ^ hT := by
              rw [Nat.sub_mul, Nat.one_mul]
            have hge1T : 1 * 2 ^ hT
                ≤ (0 + bits + (elemBits hT - 1)) / elemBits hT * 2 ^ hT :=
              Nat.mul_le_mul_right _ (by omega)
            rw [Nat.one_mul] at hge1T
            have hEm1w : ((0 + bits + (elemBits hT - 1)) / elemBits hT - 1)
                * elemBits hT
                = (0 + bits + (elemBits hT - 1)) / elemBits hT * elemBits hT
                  - elemBits hT := by
              rw [Nat.sub_mul, Nat.one_mul]
            have hge1w : 1 * elemBits hT
                ≤ (0 + bits + (elemBits hT - 1)) / elemBits hT * elemBits hT :=
              Nat.mul_le_mul_right _ (by omega)
            rw [Nat.one_mul] at hge1w
            have hEw8 : (0 + bits + (elemBits hT - 1)) / elemBits hT
                * elemBits hT
                = 8 * ((0 + bits + (elemBits hT - 1)) / elemBits hT
                  * 2 ^ hT) := by
              unfold elemBits
              ring
            have hEm1w8 : ((0 + bits + (elemBits hT - 1)) / elemBits hT - 1)
                * elemBits hT
                = 8 * (((0 + bits + (elemBits hT - 1)) / elemBits hT - 1)
                  * 2 ^ hT) := by
              unfold elemBits
              ring
            obtain ⟨lL, cL, rL, hsplit, hsum, halignC⟩ :=
              @sliceAlignTo_spec hT hU addr
                ((0 + bits + (elemBits hT - 1)) / elemBits hT - 1) hal
            have hsquash : sliceAlignTo (elemBytes hT) (elemBytes hU) addr
                ((0 + bits + (elemBits hT - 1)) / elemBits hT - 1)
                = ((addr, lL), (addr + lL * 2 ^ hT, cL),
                   (addr + lL * 2 ^ hT + cL * 2 ^ hU, rL)) := by
              unfold elemBytes
              exact hsplit
            have heq : BitPtr.align_to hT hU (BitPtr.new_unchecked hT addr 0 bits)
                = ((if lL * elemBits hT = 0 then BitPtr.EMPTY hT
                    else BitPtr.new_unchecked hT addr 0 (lL * elemBits hT)),
                   (if cL * elemBits hU = 0 then BitPtr.EMPTY hU
                    else BitPtr.new_unchecked hU (addr + lL * 2 ^ hT) 0
                      (cL * elemBits hU)),
                   BitPtr.new_unchecked hT
                     (if rL = 0 then
                        addr + ((0 + bits + (elemBits hT - 1)) / elemBits hT - 1)
                          * 2 ^ hT
                      else addr + lL * 2 ^ hT + cL * 2 ^ hU) 0
                     ((if (0 + bits) % elemBits hT = 0 then elemBits hT
                       else (0 + bits) % elemBits hT) + rL * elemBits hT)) := by
              unfold BitPtr.align_to
              rw [hdom]
              simp only [hsquash]
            have hlw8 : lL * elemBits hT = 8 * (lL * 2 ^ hT) := by
              unfold elemBits
              ring
            have hcw8 : cL * elemBits hU = 8 * (cL * 2 ^ hU) := by
              unfold elemBits
              ring
            have hrw8 : rL * elemBits hT = 8 * (rL * 2 ^ hT) := by
              unfold elemBits
              ring
            have hLc : (if lL * elemBits hT = 0 then BitPtr.EMPTY hT
                else BitPtr.new_unchecked hT addr 0 (lL * elemBits hT)).contents hT
                = ival (8 * addr + 0) (0 + lL * elemBits hT) := by
              by_cases hlz : lL * elemBits hT = 0
              · rw [if_pos hlz, contents_EMPTY]
                simp [ival, hlz]
              · rw [if_neg hlz, contents_arith hh hA hal hw (by omega)]
                exact ival_congr rfl (by omega)
            have hLl : (if lL * elemBits hT = 0 then BitPtr.EMPTY hT
                else BitPtr.new_unchecked hT addr 0 (lL * elemBits hT)).len
                = 0 + lL * elemBits hT := by
              by_cases hlz : lL * elemBits hT = 0
              · rw [if_pos hlz, len_EMPTY]
                omega
              · rw [if_neg hlz, len_new_unchecked hh hA hal hw (by omega)]
                omega
            have hCc : (if cL * elemBits hU = 0 then BitPtr.EMPTY hU
                else BitPtr.new_unchecked hU (addr + lL * 2 ^ hT) 0
                  (cL * elemBits hU)).contents hU
                = ival (8 * addr + 0 + (0 + lL * elemBits hT))
                    (cL * elemBits hU) := by
              by_cases hcz0 : cL * elemBits hU = 0
              · rw [if_pos hcz0, contents_EMPTY]
                simp [ival, hcz0]
              · have hcnz : cL ≠ 0 := by
                  intro h0
                  rw [h0, Nat.zero_mul] at hcz0
                  exact hcz0 rfl
                have hCA : addr + lL * 2 ^ hT < 2 ^ 64 := by omega
                rw [if_neg hcz0,
                  contents_arith hu hCA (halignC hcnz) hwU (by omega)]
                exact ival_congr (by omega) rfl
            have hCl : (if cL * elemBits hU = 0 then BitPtr.EMPTY hU
                else BitPtr.new_unchecked hU (addr + lL * 2 ^ hT) 0
                  (cL * elemBits hU)).len = cL * elemBits hU := by
              by_cases hcz0 : cL * elemBits hU = 0
              · rw [if_pos hcz0, len_EMPTY]
                omega
              · have hcnz : cL ≠ 0 := by
                  intro h0
                  rw [h0, Nat.zero_mul] at hcz0
                  exact hcz0 rfl
                have hCA : addr + lL * 2 ^ hT < 2 ^ 64 := by omega
                rw [if_neg hcz0,
                  len_new_unchecked hu hCA (halignC hcnz) hwU (by omega)]
            have hRc : (BitPtr.new_unchecked hT
                  (if rL = 0 then
                    addr + ((0 + bits + (elemBits hT - 1)) / elemBits hT - 1)
                      * 2 ^ hT
                   else addr + lL * 2 ^ hT + cL * 2 ^ hU) 0
                  ((if (0 + bits) % elemBits hT = 0 then elemBits hT
                    else (0 + bits) % elemBits hT)
                    + rL * elemBits hT)).contents hT
                = ival (8 * addr + 0 + (0 + lL * elemBits hT + cL * elemBits hU))
                    ((if (0 + bits) % elemBits hT = 0 then elemBits hT
                      else (0 + bits) % elemBits hT) + rL * elemBits hT) := by
              by_cases hrz : rL = 0
              · rw [if_pos hrz]
                have hn0 : rL * 2 ^ hT = 0 := by
                  rw [hrz, Nat.zero_mul]
                have hTA : addr
                    + ((0 + bits + (elemBits hT - 1)) / elemBits hT - 1)
                      * 2 ^ hT < 2 ^ 64 := by omega
                have hTal : (addr
                    + ((0 + bits + (elemBits hT - 1)) / elemBits hT - 1)
                      * 2 ^ hT) % 2 ^ hT = 0 := by
                  rw [Nat.add_mul_mod_self_right]
                  exact hal
                have hbnd : (if (0 + bits) % elemBits hT = 0 then elemBits hT
                    else (0 + bits) % elemBits hT) + rL * elemBits hT
                    ≤ REGION_MAX_BITS := by omega
                rw [contents_arith hh hTA hTal hw hbnd]
                exact ival_congr (by omega) rfl
              · have h1T : 1 * 2 ^ hT ≤ rL * 2 ^ hT :=
                  Nat.mul_le_mul_right _ (Nat.pos_of_ne_zero hrz)
                rw [Nat.one_mul] at h1T
                have hRA : addr + lL * 2 ^ hT + cL * 2 ^ hU < 2 ^ 64 := by omega
                have hcd : cL * 2 ^ hU
                    = ((0 + bits + (elemBits hT - 1)) / elemBits hT - 1 - lL - rL)
                      * 2 ^ hT := by
                  rw [Nat.sub_mul, Nat.sub_mul]
                  omega
                have hRal : (addr + lL * 2 ^ hT + cL * 2 ^ hU) % 2 ^ hT = 0 := by
                  rw [hcd, Nat.add_mul_mod_self_right, Nat.add_mul_mod_self_right]
                  exact hal
                rw [if_neg hrz, contents_arith hh hRA hRal hw (by omega)]
                exact ival_congr (by omega) rfl
            have hRl : (BitPtr.new_unchecked hT
                  (if rL = 0 then
                    addr + ((0 + bits + (elemBits hT - 1)) / elemBits hT - 1)
                      * 2 ^ hT
                   else addr + lL * 2 ^ hT + cL * 2 ^ hU) 0
                  ((if (0 + bits) % elemBits hT = 0 then elemBits hT
                    else (0 + bits) % elemBits hT)
                    + rL * elemBits hT)).len
                = (if (0 + bits) % elemBits hT = 0 then elemBits hT
                   else (0 + bits) % elemBits hT) + rL * elemBits hT := by
              by_cases hrz : rL = 0
              · rw [if_pos hrz]
                have hTA : addr
                    + ((0 + bits + (elemBits hT - 1)) / elemBits hT - 1)
                      * 2 ^ hT < 2 ^ 64 := by omega
                have hTal : (addr
                    + ((0 + bits + (elemBits hT - 1)) / elemBits hT - 1)
                      * 2 ^ hT) % 2 ^ hT = 0 := by
                  rw [Nat.add_mul_mod_self_right]
                  exact hal
                have hbnd : (if (0 + bits) % elemBits hT = 0 then elemBits hT
                    else (0 + bits) % elemBits hT) + rL * elemBits hT
                    ≤ REGION_MAX_BITS := by omega
                rw [len_new_unchecked hh hTA hTal hw hbnd]
              · have h1T : 1 * 2 ^ hT ≤ rL * 2 ^ hT :=
                  Nat.mul_le_mul_right _ (Nat.pos_of_ne_zero hrz)
                rw [Nat.one_mul] at h1T
                have hRA : addr + lL * 2 ^ hT + cL * 2 ^ hU < 2 ^ 64 := by omega
                have hcd : cL * 2 ^ hU
                    = ((0 + bits + (elemBits hT - 1)) / elemBits hT - 1 - lL - rL)
                      * 2 ^ hT := by
                  rw [Nat.sub_mul, Nat.sub_mul]
                  omega
                have hRal : (addr + lL * 2 ^ hT + cL * 2 ^ hU) % 2 ^ hT = 0 := by
                  rw [hcd, Nat.add_mul_mod_self_right, Nat.add_mul_mod_self_right]
                  exact hal
                rw [if_neg hrz, len_new_unchecked hh hRA hRal hw (by omega)]
            have htot : 0 + lL * elemBits hT + cL * elemBits hU
                + ((if (0 + bits) % elemBits hT = 0 then elemBits hT
                    else (0 + bits) % elemBits hT) + rL * elemBits hT)
                = bits := by
              omega
            have hCp : cL ≠ 0 →
                (if cL * elemBits hU = 0 then BitPtr.EMPTY hU
                 else BitPtr.new_unchecked hU (addr + lL * 2 ^ hT) 0
                   (cL * elemBits hU)).pointer hU % 2 ^ hU = 0 := by
              intro hcn
              have hcz0 : ¬ cL * elemBits hU = 0 := by
                intro h0
                rcases Nat.mul_eq_zero.mp h0 with h | h
                · exact hcn h
                · omega
              have hCA : addr + lL * 2 ^ hT < 2 ^ 64 := by omega
              rw [if_neg hcz0,
                new_unchecked_arith hu hCA (halignC hcn) hwU (by omega),
                pointer_arith hu hCA (halignC hcn) hwU]
              exact halignC hcn
            obtain ⟨c1, c2, c3⟩ :=
              pieces_assemble heq hcont hplen hLc hLl hCc hCl hRc hRl htot hCp
            exact ⟨c1, c2, c3, fun hd a tl hencl => align_to_of_enclave hencl⟩
          · -- both edges
            have hbnz : ¬ bits = 0 := by
              intro h0
              have h2 : (head + bits + (elemBits hT - 1)) / elemBits hT < 2 :=
                (Nat.div_lt_iff_lt_mul hw).mpr (by omega)
              omega
            have houter : (if head = 0 ∧ bits = 0 then 0
                else if (head + bits) % elemBits hT = 0 then elemBits hT
                else (head + bits) % elemBits hT)
                = (if (head + bits) % elemBits hT = 0 then elemBits hT
                   else (head + bits) % elemBits hT) := by
              rw [if_neg (by omega)]
            have hTlt : (if (head + bits) % elemBits hT = 0 then elemBits hT
                else (head + bits) % elemBits hT) < elemBits hT := by
              rw [houter] at htw
              omega
            have hE2 : 2 ≤ (head + bits + (elemBits hT - 1)) / elemBits hT := by
              omega
            have hdom : domain hT (BitPtr.new_unchecked hT addr head bits)
                = Domain.region (some (head, addr))
                    (addr + 2 ^ hT,
                     (head + bits + (elemBits hT - 1)) / elemBits hT - 2)
                    (some (addr
                        + ((head + bits + (elemBits hT - 1)) / elemBits hT - 1)
                          * 2 ^ hT,
                      if (head + bits) % elemBits hT = 0 then elemBits hT
                      else (head + bits) % elemBits hT)) := by
              rw [hdomeval, if_neg hEnz, if_neg hsp, if_neg hone, if_neg htw,
                if_neg hh0, houter]
            have hspan : spanElts hT head bits
                = (head + bits + (elemBits hT - 1)) / elemBits hT := by
              unfold spanElts
              rw [if_neg hbnz]
            have hwrap2 : addr
                + (head + bits + (elemBits hT - 1)) / elemBits hT * 2 ^ hT
                < 2 ^ 64 := by
              rw [← hspan]
              unfold elemBytes at hwrap
              exact hwrap
            have hEm1T : ((head + bits + (elemBits hT - 1)) / elemBits hT - 1)
                * 2 ^ hT
                = (head + bits + (elemBits hT - 1)) / elemBits hT * 2 ^ hT
                  - 2 ^ hT := by
              rw [Nat.sub_mul, Nat.one_mul]
            have hEm2T : ((head + bits + (elemBits hT - 1)) / elemBits hT - 2)
                * 2 ^ hT
                = (head + bits + (elemBits hT - 1)) / elemBits hT * 2 ^ hT
                  - 2 * 2 ^ hT := by
              rw [Nat.sub_mul]
            have hge2T : 2 * 2 ^ hT
                ≤ (head + bits + (elemBits hT - 1)) / elemBits hT * 2 ^ hT :=
              Nat.mul_le_mul_right _ hE2
            have hEm1w : ((head + bits + (elemBits hT - 1)) / elemBits hT - 1)
                * elemBits hT
                = (head + bits + (elemBits hT - 1)) / elemBits hT * elemBits hT
                  - elemBits hT := by
              rw [Nat.sub_mul, Nat.one_mul]
            have hEm2w : ((head + bits + (elemBits hT - 1)) / elemBits hT - 2)
                * elemBits hT
                = (head + bits + (elemBits hT - 1)) / elemBits hT * elemBits hT
                  - 2 * elemBits hT := by
              rw [Nat.sub_mul]
            have hge2w : 2 * elemBits hT
                ≤ (head + bits + (elemBits hT - 1)) / elemBits hT
                  * elemBits hT :=
              Nat.mul_le_mul_right _ hE2
            have hEw8 : (head + bits + (elemBits hT - 1)) / elemBits hT
                * elemBits hT
                = 8 * ((head + bits + (elemBits hT - 1)) / elemBits hT
                  * 2 ^ hT) := by
              unfold elemBits
              ring
            have hEm1w8 : ((head + bits + (elemBits hT - 1)) / elemBits hT - 1)
                * elemBits hT
                = 8 * (((head + bits + (elemBits hT - 1)) / elemBits hT - 1)
                  * 2 ^ hT) := by
              unfold elemBits
              ring
            have hEm2w8 : ((head + bits + (elemBits hT - 1)) / elemBits hT - 2)
                * elemBits hT
                = 8 * (((head + bits + (elemBits hT - 1)) / elemBits hT - 2)
                  * 2 ^ hT) := by
              unfold elemBits
              ring
            have hw2T : elemBits hT = 8 * 2 ^ hT := rfl
            have hbal : (addr + 2 ^ hT) % 2 ^ hT = 0 := by
              rw [Nat.add_mod_right]
              exact hal
            obtain ⟨lL, cL, rL, hsplit, hsum, halignC⟩ :=
              @sliceAlignTo_spec hT hU (addr + 2 ^ hT)
                ((head + bits + (elemBits hT - 1)) / elemBits hT - 2) hbal
            have hsquash : sliceAlignTo (elemBytes hT) (elemBytes hU)
                (addr + 2 ^ hT)
                ((head + bits + (elemBits hT - 1)) / elemBits hT - 2)
                = ((addr + 2 ^ hT, lL), (addr + 2 ^ hT + lL * 2 ^ hT, cL),
                   (addr + 2 ^ hT + lL * 2 ^ hT + cL * 2 ^ hU, rL)) := by
              unfold elemBytes
              exact hsplit
            have heq : BitPtr.align_to hT hU
                (BitPtr.new_unchecked hT addr head bits)
                = (BitPtr.new_unchecked hT addr head
                     (elemBits hT - head + lL * elemBits hT),
                   (if cL * elemBits hU = 0 then BitPtr.EMPTY hU
                    else BitPtr.new_unchecked hU (addr + 2 ^ hT + lL * 2 ^ hT)
                      0 (cL * elemBits hU)),
                   BitPtr.new_unchecked hT
                     (if rL = 0 then
                        addr
                        + ((head + bits + (elemBits hT - 1)) / elemBits hT - 1)
                          * 2 ^ hT
                      else addr + 2 ^ hT + lL * 2 ^ hT + cL * 2 ^ hU) 0
                     ((if (head + bits) % elemBits hT = 0 then elemBits hT
                       else (head + bits) % elemBits hT)
                       + rL * elemBits hT)) := by
              unfold BitPtr.align_to
              rw [hdom]
              simp only [hsquash]
            have hlw8 : lL * elemBits hT = 8 * (lL * 2 ^ hT) := by
              unfold elemBits
              ring
            have hcw8 : cL * elemBits hU = 8 * (cL * 2 ^ hU) := by
              unfold elemBits
              ring
            have hrw8 : rL * elemBits hT = 8 * (rL * 2 ^ hT) := by
              unfold elemBits
              ring
            have hbndL : elemBits hT - head + lL * elemBits hT
                ≤ REGION_MAX_BITS := by
              omega
            have hLc : (BitPtr.new_unchecked hT addr head
                  (elemBits hT - head + lL * elemBits hT)).contents hT
                = ival (8 * addr + head)
                    (elemBits hT - head + lL * elemBits hT) := by
              rw [contents_arith hh hA hal hH hbndL]
            have hLl : (BitPtr.new_unchecked hT addr head
                  (elemBits hT - head + lL * elemBits hT)).len
                = elemBits hT - head + lL * elemBits hT :=
              len_new_unchecked hh hA hal hH hbndL
            have hCc : (if cL * elemBits hU = 0 then BitPtr.EMPTY hU
                else BitPtr.new_unchecked hU (addr + 2 ^ hT + lL * 2 ^ hT) 0
                  (cL * elemBits hU)).contents hU
                = ival (8 * addr + head
                    + (elemBits hT - head + lL * elemBits hT))
                    (cL * elemBits hU) := by
              by_cases hcz0 : cL * elemBits hU = 0
              · rw [if_pos hcz0, contents_EMPTY]
                simp [ival, hcz0]
              · have hcnz : cL ≠ 0 := by
                  intro h0
                  rw [h0, Nat.zero_mul] at hcz0
                  exact hcz0 rfl
                have hCA : addr + 2 ^ hT + lL * 2 ^ hT < 2 ^ 64 := by omega
                rw [if_neg hcz0,
                  contents_arith hu hCA (halignC hcnz) hwU (by omega)]
                exact ival_congr (by omega) rfl
            have hCl : (if cL * elemBits hU = 0 then BitPtr.EMPTY hU
                else BitPtr.new_unchecked hU (addr + 2 ^ hT + lL * 2 ^ hT) 0
                  (cL * elemBits hU)).len = cL * elemBits hU := by
              by_cases hcz0 : cL * elemBits hU = 0
              · rw [if_pos hcz0, len_EMPTY]
                omega
              · have hcnz : cL ≠ 0 := by
                  intro h0
                  rw [h0, Nat.zero_mul] at hcz0
                  exact hcz0 rfl
                have hCA : addr + 2 ^ hT + lL * 2 ^ hT < 2 ^ 64 := by omega
                rw [if_neg hcz0,
                  len_new_unchecked hu hCA (halignC hcnz) hwU (by omega)]
            have hRc : (BitPtr.new_unchecked hT
                  (if rL = 0 then
                    addr
                    + ((head + bits + (elemBits hT - 1)) / elemBits hT - 1)
                      * 2 ^ hT
                   else addr + 2 ^ hT + lL * 2 ^ hT + cL * 2 ^ hU) 0
                  ((if (head + bits) % elemBits hT = 0 then elemBits hT
                    else (head + bits) % elemBits hT)
                    + rL * elemBits hT)).contents hT
                = ival (8 * addr + head
                    + (elemBits hT - head + lL * elemBits hT
                      + cL * elemBits hU))
                    ((if (head + bits) % elemBits hT = 0 then elemBits hT
                      else (head + bits) % elemBits hT)
                      + rL * elemBits hT) := by
              by_cases hrz : rL = 0
              · rw [if_pos hrz]
                have hn0 : rL * 2 ^ hT = 0 := by
                  rw [hrz, Nat.zero_mul]
                have hTA : addr
                    + ((head + bits + (elemBits hT - 1)) / elemBits hT - 1)
                      * 2 ^ hT < 2 ^ 64 := by omega
                have hTal : (addr
                    + ((head + bits + (elemBits hT - 1)) / elemBits hT - 1)
                      * 2 ^ hT) % 2 ^ hT = 0 := by
                  rw [Nat.add_mul_mod_self_right]
                  exact hal
                have hbnd : (if (head + bits) % elemBits hT = 0 then
                      elemBits hT
                    else (head + bits) % elemBits hT) + rL * elemBits hT
                    ≤ REGION_MAX_BITS := by omega
                rw [contents_arith hh hTA hTal hw hbnd]
                exact ival_congr (by omega) rfl
              · have h1T : 1 * 2 ^ hT ≤ rL * 2 ^ hT :=
                  Nat.mul_le_mul_right _ (Nat.pos_of_ne_zero hrz)
                rw [Nat.one_mul] at h1T
                have hRA : addr + 2 ^ hT + lL * 2 ^ hT + cL * 2 ^ hU
                    < 2 ^ 64 := by omega
                have hcd : cL * 2 ^ hU
                    = ((head + bits + (elemBits hT - 1)) / elemBits hT - 2
                        - lL - rL) * 2 ^ hT := by
                  rw [Nat.sub_mul, Nat.sub_mul]
                  omega
                have hRal : (addr + 2 ^ hT + lL * 2 ^ hT + cL * 2 ^ hU)
                    % 2 ^ hT = 0 := by
                  rw [hcd, Nat.add_mul_mod_self_right,
                    Nat.add_mul_mod_self_right, Nat.add_mod_right]
                  exact hal
                rw [if_neg hrz, contents_arith hh hRA hRal hw (by omega)]
                exact ival_congr (by omega) rfl
            have hRl : (BitPtr.new_unchecked hT
                  (if rL = 0 then
                    addr
                    + ((head + bits + (elemBits hT - 1)) / elemBits hT - 1)
                      * 2 ^ hT
                   else addr + 2 ^ hT + lL * 2 ^ hT + cL * 2 ^ hU) 0
                  ((if (head + bits) % elemBits hT = 0 then elemBits hT
                    else (head + bits) % elemBits hT)
                    + rL * elemBits hT)).len
                = (if (head + bits) % elemBits hT = 0 then elemBits hT
                   else (head + bits) % elemBits hT) + rL * elemBits hT := by
              by_cases hrz : rL = 0
              · rw [if_pos hrz]
                have hn0 : rL * 2 ^ hT = 0 := by
                  rw [hrz, Nat.zero_mul]
                have hTA : addr
                    + ((head + bits + (elemBits hT - 1)) / elemBits hT - 1)
                      * 2 ^ hT < 2 ^ 64 := by omega
                have hTal : (addr
                    + ((head + bits + (elemBits hT - 1)) / elemBits hT - 1)
                      * 2 ^ hT) % 2 ^ hT = 0 := by
                  rw [Nat.add_mul_mod_self_right]
                  exact hal
                have hbnd : (if (head + bits) % elemBits hT = 0 then
                      elemBits hT
                    else (head + bits) % elemBits hT) + rL * elemBits hT
                    ≤ REGION_MAX_BITS := by omega
                rw [len_new_unchecked hh hTA hTal hw hbnd]
              · have h1T : 1 * 2 ^ hT ≤ rL * 2 ^ hT :=
                  Nat.mul_le_mul_right _ (Nat.pos_of_ne_zero hrz)
                rw [Nat.one_mul] at h1T
                have hRA : addr + 2 ^ hT + lL * 2 ^ hT + cL * 2 ^ hU
                    < 2 ^ 64 := by omega
                have hcd : cL * 2 ^ hU
                    = ((head + bits + (elemBits hT - 1)) / elemBits hT - 2
                        - lL - rL) * 2 ^ hT := by
                  rw [Nat.sub_mul, Nat.sub_mul]
                  omega
                have hRal : (addr + 2 ^ hT + lL * 2 ^ hT + cL * 2 ^ hU)
                    % 2 ^ hT = 0 := by
                  rw [hcd, Nat.add_mul_mod_self_right,
                    Nat.add_mul_mod_self_right, Nat.add_mod_right]
                  exact hal
                rw [if_neg hrz, len_new_unchecked hh hRA hRal hw (by omega)]
            have htot : elemBits hT - head + lL * elemBits hT
                + cL * elemBits hU
                + ((if (head + bits) % elemBits hT = 0 then elemBits hT
                    else (head + bits) % elemBits hT)
                    + rL * elemBits hT) = bits := by
              omega
            have hCp : cL ≠ 0 →
                (if cL * elemBits hU = 0 then BitPtr.EMPTY hU
                 else BitPtr.new_unchecked hU (addr + 2 ^ hT + lL * 2 ^ hT) 0
                   (cL * elemBits hU)).pointer hU % 2 ^ hU = 0 := by
              intro hcn
              have hcz0 : ¬ cL * elemBits hU = 0 := by
                intro h0
                rcases Nat.mul_eq_zero.mp h0 with h | h
                · exact hcn h
                · omega
              have hCA : addr + 2 ^ hT + lL * 2 ^ hT < 2 ^ 64 := by omega
              rw [if_neg hcz0,
                new_unchecked_arith hu hCA (halignC hcn) hwU (by omega),
                pointer_arith hu hCA (halignC hcn) hwU]
              exact halignC hcn
            obtain ⟨c1, c2, c3⟩ :=
              pieces_assemble heq hcont hplen hLc hLl hCc hCl hRc hRl htot hCp
            exact ⟨c1, c2, c3, fun hd a tl hencl => align_to_of_enclave hencl⟩

/-- Witness for C3: the claim theorem applied at the `u8` source,
`u32` target instance `(addr, head, bits) = (17, 3, 100)`. -/
theorem align_to_partition_witness :
    ((2:Nat) ≤ 3 ∧ Valid 0 17 3 100)
    ∧ (((BitPtr.align_to 0 2 (BitPtr.new_unchecked 0 17 3 100)).1.contents 0
        ++ (BitPtr.align_to 0 2 (BitPtr.new_unchecked 0 17 3 100)).2.1.contents 2
        ++ (BitPtr.align_to 0 2 (BitPtr.new_unchecked 0 17 3 100)).2.2.contents 0
      = (BitPtr.new_unchecked 0 17 3 100).contents 0)
    ∧ ((BitPtr.align_to 0 2 (BitPtr.new_unchecked 0 17 3 100)).1.len
        + (BitPtr.align_to 0 2 (BitPtr.new_unchecked 0 17 3 100)).2.1.len
        + (BitPtr.align_to 0 2 (BitPtr.new_unchecked 0 17 3 100)).2.2.len
      = (BitPtr.new_unchecked 0 17 3 100).len)
    ∧ ((BitPtr.align_to 0 2 (BitPtr.new_unchecked 0 17 3 100)).2.1.len ≠ 0 →
        (∃ k, 0 < k ∧
          (BitPtr.align_to 0 2 (BitPtr.new_unchecked 0 17 3 100)).2.1.len
            = k * elemBits 2)
        ∧ (BitPtr.align_to 0 2 (BitPtr.new_unchecked 0 17 3 100)).2.1.pointer 2
            % 2 ^ 2 = 0
        ∧ ∀ x, x ∈ (BitPtr.align_to 0 2
              (BitPtr.new_unchecked 0 17 3 100)).2.1.contents 2 →
            x ∈ (BitPtr.new_unchecked 0 17 3 100).contents 0)
    ∧ (∀ hd a tl,
        domain 0 (BitPtr.new_unchecked 0 17 3 100) = Domain.enclave hd a tl →
        BitPtr.align_to 0 2 (BitPtr.new_unchecked 0 17 3 100)
          = (BitPtr.new_unchecked 0 17 3 100, BitPtr.EMPTY 2, BitPtr.EMPTY 0))) :=
  ⟨⟨by decide, by decide⟩, align_to_partition (by decide) (by decide)⟩

end Bitvec
